import Mathlib

/-!
# trend: point encoder, quote fetcher and collection loop

Shallow embedding of `coinmarketcap.go` (package `trend`) and of the goroutines of
`cmd/trend/main.go`.

* `float64` values and `time.Time` values are only copied by the program, never computed
  with; the embedding is generic in their types `V` and `T`.
* Functions of the Go standard library and of the influxdb client that the program calls
  (`strings.ToUpper`, `strings.ToLower`, the iteration order of `range` over a map, the
  validation done by `models.NewPoint`, `http.Get`, `ioutil.ReadAll`, `json.Unmarshal`) are
  parameters, collected in the structures `Lib` and `Net`.
* A point of the influxdb package `models` keeps its measurement name and its tags as one
  escaped series key; the name and the tags a point shows are parsed back from that key. The
  key and its parsing are modelled after `models/points.go`, and so is the validation
  (`pointKey`, used in the library instance `influxLib`).
* A Go call either returns or panics: `Go α`.
-/

namespace Trend

/-! ## Go values -/

/-- A Go call: it returns a value, or it panics at run time. -/
inductive Go (α : Type) where
  | val (a : α)
  | panic (msg : String)

namespace Go

/-- Sequencing: a panic aborts everything after it. -/
def bind {α β : Type} (x : Go α) (f : α → Go β) : Go β :=
  match x with
  | val a => f a
  | panic msg => panic msg

/-- Whether the call panicked. -/
def panics {α : Type} (x : Go α) : Bool :=
  match x with
  | val _ => false
  | panic _ => true

end Go

instance : Monad Go where
  pure := Go.val
  bind := Go.bind

/-- A Go `map[string]V`: an association list with pairwise distinct keys. All operations are
by key; the position of an entry carries no meaning. -/
abbrev GoMap (V : Type) := List (String × V)

namespace GoMap

/-- The read `m[k]` with its `ok` flag: `some v` when the key is present. -/
def get? {V : Type} (m : GoMap V) (k : String) : Option V :=
  match m with
  | [] => none
  | (k', v) :: rest => if k' = k then some v else get? rest k

/-- The assignment `m[k] = v`: overwrite the entry of `k`, or add one. -/
def set {V : Type} (m : GoMap V) (k : String) (v : V) : GoMap V :=
  match m with
  | [] => [(k, v)]
  | (k', v') :: rest => if k' = k then (k, v) :: rest else (k', v') :: set rest k v

/-- The keys of the map. -/
def keys {V : Type} (m : GoMap V) : List String := m.map Prod.fst

/-- A composite literal `map[string]V{k1: v1, k2: v2, ...}`: the entries are assigned in
source order (keys that are not constants may repeat; the later entry wins). -/
def literal {V : Type} (entries : List (String × V)) : GoMap V :=
  entries.foldl (fun m kv => m.set kv.1 kv.2) []

end GoMap

/-- The influxdb type `models.Fields` (`map[string]interface{}`); every value the program
stores is a `float64`. -/
abbrev Fields (V : Type) := GoMap V

/-- The influxdb type `models.Tags`: key/value pairs sorted by key. -/
abbrev Tags := List (String × String)

/-- The influxdb function `models.NewTags`: the entries of the map, sorted by key. -/
def NewTags (m : GoMap String) : Tags :=
  m.insertionSort (fun a b => a.1 < b.1 ∨ a.1 = b.1)

/-! ## The influxdb package `models`: the series key of a point

A key is a sequence of bytes; it is a `List Char` here, the characters that matter
(comma, space, equals sign, backslash) being single bytes. -/

/-- The byte `\`. -/
def backslash : Char := Char.ofNat 92

/-- The byte `,`. -/
def comma : Char := Char.ofNat 44

/-- The byte of a blank. -/
def space : Char := Char.ofNat 32

/-- The byte `=`. -/
def equals : Char := Char.ofNat 61

/-- The byte of a double quotation mark. -/
def quote : Char := Char.ofNat 34

/-- The bytes `escapeMeasurement` puts a backslash before. -/
def measurementEscapeCodes : List Char := [comma, space]

/-- The bytes `escapeTag` puts a backslash before. -/
def tagEscapeCodes : List Char := [comma, space, equals]

/-- The library functions `escapeMeasurement` and `escapeTag`: `bytes.Replace` of every byte
of `codes` by a backslash and that byte. -/
def escapeCodes (codes : List Char) (s : List Char) : List Char :=
  match s with
  | [] => []
  | c :: cs =>
    if c ∈ codes then backslash :: c :: escapeCodes codes cs else c :: escapeCodes codes cs

/-- One `bytes.Replace` of the unescaping functions: every backslash followed by `c` becomes
`c`, from left to right. -/
def unescapeCode (c : Char) (s : List Char) : List Char :=
  match s with
  | [] => []
  | [x] => [x]
  | x :: y :: rest =>
    if x = backslash ∧ y = c then c :: unescapeCode c rest else x :: unescapeCode c (y :: rest)

/-- The library function `escape.Unescape`: one pass that drops the backslash before a comma,
a quotation mark, a blank or an equals sign. -/
def Unescape (s : List Char) : List Char :=
  match s with
  | [] => []
  | [x] => [x]
  | x :: y :: rest =>
    if x = backslash ∧ y ∈ [comma, quote, space, equals] then y :: Unescape rest
    else x :: Unescape (y :: rest)

/-- The library function `unescapeMeasurement`. -/
def unescapeMeasurement (s : List Char) : List Char :=
  unescapeCode space (unescapeCode comma s)

/-- The library function `unescapeTag`: nothing to do without a backslash, else one
replacement per escape code. -/
def unescapeTag (s : List Char) : List Char :=
  if backslash ∈ s then unescapeCode equals (unescapeCode space (unescapeCode comma s)) else s

/-- The library function `scanTo(buf, i, stop)`: the bytes from `i` up to the first `stop`
that is not preceded by a backslash, and the bytes from that `stop` on. `prev` is the byte
`buf[i-1]`, `none` at `i = 0`. With `stop` a comma and `prev` given it is `scanTagValue`. -/
def scanTo (stop : Char) (prev : Option Char) (buf : List Char) : List Char × List Char :=
  match buf with
  | [] => ([], [])
  | c :: cs =>
    if c = stop ∧ prev ≠ some backslash then ([], c :: cs)
    else ((c :: (scanTo stop (some c) cs).1), (scanTo stop (some c) cs).2)

/-- The library method `Tags.HashKey`: for every tag, in order, a comma, the escaped key, an
equals sign and the escaped value; a tag whose value is empty is left out. -/
def HashKey (tags : Tags) : List Char :=
  match tags with
  | [] => []
  | (k, v) :: rest =>
    if escapeCodes tagEscapeCodes v.data = [] then HashKey rest
    else comma :: (escapeCodes tagEscapeCodes k.data ++
      equals :: (escapeCodes tagEscapeCodes v.data ++ HashKey rest))

/-- The library function `MakeKey`: the series key of a measurement name and tags. -/
def MakeKey (name : String) (tags : Tags) : List Char :=
  escapeCodes measurementEscapeCodes (unescapeMeasurement name.data) ++ HashKey tags

/-- The library method `Name()` of a point: the key up to its first unescaped comma,
unescaped. -/
def parseName (key : List Char) : String :=
  String.mk (Unescape (scanTo comma none key).1)

/-- The loop of the library function `parseTags`, started behind the comma that ends the
measurement name: scan a tag key up to `=`, a tag value up to `,`, skip a tag whose value is
empty, unescape when the key holds a backslash. `fuel` bounds the number of rounds; each
round consumes at least one byte. -/
def tagsLoop (fuel : Nat) (hasEscape : Bool) (prev : Char) (buf : List Char) : Tags :=
  match fuel with
  | 0 => []
  | fuel + 1 =>
    match buf with
    | [] => []
    | b :: bs =>
      match (scanTo equals (some prev) (b :: bs)).2 with
      | [] => []
      | e :: afterEq =>
        let key := (scanTo equals (some prev) (b :: bs)).1
        let value := (scanTo comma (some e) afterEq).1
        let rest := (scanTo comma (some e) afterEq).2
        if value = [] then tagsLoop fuel hasEscape e rest
        else
          (if hasEscape then (String.mk (unescapeTag key), String.mk (unescapeTag value))
            else (String.mk key, String.mk value)) ::
          (match rest with
            | [] => []
            | c :: next => tagsLoop fuel hasEscape c next)

/-- The library method `Tags()` of a point (`parseTags`): no tags when the measurement name
is empty, else the tags read from the key behind the name. -/
def parseTags (key : List Char) : Tags :=
  match (scanTo comma none key).1, (scanTo comma none key).2 with
  | [], _ => []
  | _ :: _, [] => []
  | _ :: _, c :: rest => tagsLoop (key.length + 1) (decide (backslash ∈ key)) c rest

/-- An influxdb point as its methods show it: `name` is what `Name()` returns and `tags` what
`Tags()` returns, both read from the series key of the point; `fields` and `time` are the
fields and the time it was built from. -/
structure Point (V T : Type) where
  name : String
  tags : Tags
  fields : Fields V
  time : T

/-- Library behaviour the encoder depends on.
* `ToUpper`, `ToLower`: `strings.ToUpper`, `strings.ToLower`.
* `rangeOrder`: the order in which a `range` loop visits the entries of a map; Go leaves it
  unspecified, it is some arrangement of the entries.
* `pointKey`: the validation done by `models.NewPoint` (`none` when it accepts). -/
structure Lib (V T E : Type) where
  ToUpper : String → String
  ToLower : String → String
  rangeOrder : GoMap V → List (String × V)
  rangeOrder_perm : ∀ m, (rangeOrder m).Perm m
  pointKey : String → Tags → Fields V → T → Option E

/-- The influxdb function `models.NewPoint`: `(nil, err)` when validation rejects the
arguments; otherwise the point that stores the series key `MakeKey name tags`, the fields
and the time. -/
def NewPoint {V T E : Type} (lib : Lib V T E) (name : String) (tags : Tags)
    (fields : Fields V) (t : T) : Option (Point V T) × Option E :=
  match lib.pointKey name tags fields t with
  | some err => (none, some err)
  | none =>
    (some ⟨parseName (MakeKey name tags), parseTags (MakeKey name tags), fields, t⟩, none)

/-- The library instance used for concrete runs: ASCII case mapping (what `strings.ToUpper`
and `strings.ToLower` do on ASCII text), `range` visiting entries in stored order, and a
point validation that accepts. -/
def asciiLib (V T E : Type) : Lib V T E where
  ToUpper := fun s => String.mk (s.data.map Char.toUpper)
  ToLower := fun s => String.mk (s.data.map Char.toLower)
  rangeOrder := fun m => m
  rangeOrder_perm := fun m => List.Perm.refl m
  pointKey := fun _ _ _ _ => none

/-! ## The data model of `coinmarketcap.go` -/

/-- The Go struct `Price` (coinmarketcap.go:154-188). -/
structure Price (V : Type) where
  AUD : V
  BRL : V
  BTC : V
  CAD : V
  CHF : V
  CLP : V
  CNY : V
  CZK : V
  DKK : V
  EUR : V
  GBP : V
  HKD : V
  HUF : V
  IDR : V
  ILS : V
  INR : V
  JPY : V
  KRW : V
  MXN : V
  MYR : V
  NOK : V
  NZD : V
  PHP : V
  PKR : V
  PLN : V
  RUB : V
  SEK : V
  SGD : V
  THB : V
  TRY : V
  TWD : V
  USD : V
  ZAR : V

/-- The Go struct `Volume` (coinmarketcap.go:211-244). -/
structure Volume (V : Type) where
  AUD : V
  BRL : V
  CAD : V
  CHF : V
  CLP : V
  CNY : V
  CZK : V
  DKK : V
  EUR : V
  GBP : V
  HKD : V
  HUF : V
  IDR : V
  ILS : V
  INR : V
  JPY : V
  KRW : V
  MXN : V
  MYR : V
  NOK : V
  NZD : V
  PHP : V
  PKR : V
  PLN : V
  RUB : V
  SEK : V
  SGD : V
  THB : V
  TRY : V
  TWD : V
  USD : V
  ZAR : V

/-- The Go struct `MarketCap` (coinmarketcap.go:265-298). -/
structure MarketCap (V : Type) where
  AUD : V
  BRL : V
  CAD : V
  CHF : V
  CLP : V
  CNY : V
  CZK : V
  DKK : V
  EUR : V
  GBP : V
  HKD : V
  HUF : V
  IDR : V
  ILS : V
  INR : V
  JPY : V
  KRW : V
  MXN : V
  MYR : V
  NOK : V
  NZD : V
  PHP : V
  PKR : V
  PLN : V
  RUB : V
  SEK : V
  SGD : V
  THB : V
  TRY : V
  TWD : V
  USD : V
  ZAR : V

/-- The Go struct `Ticker` (coinmarketcap.go:17-31); `Price`, `Volume` and `MarketCap` are
embedded structs. -/
structure Ticker (V T : Type) where
  ID : String
  Name : String
  Symbol : String
  Rank : Int
  AvailableSupply : V
  TotalSupply : V
  MaxSupply : V
  LastUpdated : T
  Price : Price V
  Volume : Volume V
  MarketCap : MarketCap V
  requestedCurrency : String

/-! ## Reflection: fields of a struct by name -/

/-- The fields that `reflect` sees in a `Price` value, by declared name. -/
def Price.structFields {V : Type} (p : Price V) : List (String × V) :=
  [("AUD", p.AUD), ("BRL", p.BRL), ("BTC", p.BTC), ("CAD", p.CAD), ("CHF", p.CHF),
   ("CLP", p.CLP), ("CNY", p.CNY), ("CZK", p.CZK), ("DKK", p.DKK), ("EUR", p.EUR),
   ("GBP", p.GBP), ("HKD", p.HKD), ("HUF", p.HUF), ("IDR", p.IDR), ("ILS", p.ILS),
   ("INR", p.INR), ("JPY", p.JPY), ("KRW", p.KRW), ("MXN", p.MXN), ("MYR", p.MYR),
   ("NOK", p.NOK), ("NZD", p.NZD), ("PHP", p.PHP), ("PKR", p.PKR), ("PLN", p.PLN),
   ("RUB", p.RUB), ("SEK", p.SEK), ("SGD", p.SGD), ("THB", p.THB), ("TRY", p.TRY),
   ("TWD", p.TWD), ("USD", p.USD), ("ZAR", p.ZAR)]

/-- The fields that `reflect` sees in a `Volume` value, by declared name. -/
def Volume.structFields {V : Type} (v : Volume V) : List (String × V) :=
  [("AUD", v.AUD), ("BRL", v.BRL), ("CAD", v.CAD), ("CHF", v.CHF),
   ("CLP", v.CLP), ("CNY", v.CNY), ("CZK", v.CZK), ("DKK", v.DKK), ("EUR", v.EUR),
   ("GBP", v.GBP), ("HKD", v.HKD), ("HUF", v.HUF), ("IDR", v.IDR), ("ILS", v.ILS),
   ("INR", v.INR), ("JPY", v.JPY), ("KRW", v.KRW), ("MXN", v.MXN), ("MYR", v.MYR),
   ("NOK", v.NOK), ("NZD", v.NZD), ("PHP", v.PHP), ("PKR", v.PKR), ("PLN", v.PLN),
   ("RUB", v.RUB), ("SEK", v.SEK), ("SGD", v.SGD), ("THB", v.THB), ("TRY", v.TRY),
   ("TWD", v.TWD), ("USD", v.USD), ("ZAR", v.ZAR)]

/-- The fields that `reflect` sees in a `MarketCap` value, by declared name. -/
def MarketCap.structFields {V : Type} (mc : MarketCap V) : List (String × V) :=
  [("AUD", mc.AUD), ("BRL", mc.BRL), ("CAD", mc.CAD), ("CHF", mc.CHF),
   ("CLP", mc.CLP), ("CNY", mc.CNY), ("CZK", mc.CZK), ("DKK", mc.DKK), ("EUR", mc.EUR),
   ("GBP", mc.GBP), ("HKD", mc.HKD), ("HUF", mc.HUF), ("IDR", mc.IDR), ("ILS", mc.ILS),
   ("INR", mc.INR), ("JPY", mc.JPY), ("KRW", mc.KRW), ("MXN", mc.MXN), ("MYR", mc.MYR),
   ("NOK", mc.NOK), ("NZD", mc.NZD), ("PHP", mc.PHP), ("PKR", mc.PKR), ("PLN", mc.PLN),
   ("RUB", mc.RUB), ("SEK", mc.SEK), ("SGD", mc.SGD), ("THB", mc.THB), ("TRY", mc.TRY),
   ("TWD", mc.TWD), ("USD", mc.USD), ("ZAR", mc.ZAR)]

/-- The reflect call `val.FieldByName(name)`: the field of that exact name, or the zero
`reflect.Value` (`none`) when the struct declares no such field. -/
def FieldByName {V : Type} (structFields : List (String × V)) (name : String) : Option V :=
  match structFields with
  | [] => none
  | (n, v) :: rest => if n = name then some v else FieldByName rest name

/-- The reflect call `.Float()` on the result of `FieldByName`: it panics on the zero
`reflect.Value`. -/
def Value.Float {V : Type} (field : Option V) : Go V :=
  match field with
  | some v => Go.val v
  | none => Go.panic "reflect: call of reflect.Value.Float on zero Value"

/-! ## The point encoder -/

/-- The Go method `Price.Fields` (coinmarketcap.go:191-208). -/
def Price.Fields {V T E : Type} (lib : Lib V T E) (p : Price V) (reqCurrency : String) :
    Go (Fields V) :=
  if reqCurrency ≠ "" then
    (Value.Float (FieldByName p.structFields (lib.ToUpper reqCurrency))).bind fun customCurrValue =>
    let customCurrStr := lib.ToLower reqCurrency
    let convertPriceStr := "price_" ++ customCurrStr
    Go.val (GoMap.literal
      [("price_usd", p.USD), ("price_btc", p.BTC), (convertPriceStr, customCurrValue)])
  else
    Go.val (GoMap.literal [("price_usd", p.USD), ("price_btc", p.BTC)])

/-- The Go method `Volume.Fields` (coinmarketcap.go:247-262). -/
def Volume.Fields {V T E : Type} (lib : Lib V T E) (v : Volume V) (reqCurrency : String) :
    Go (Fields V) :=
  if reqCurrency ≠ "" then
    (Value.Float (FieldByName v.structFields (lib.ToUpper reqCurrency))).bind fun customCurrValue =>
    let customCurrStr := lib.ToLower reqCurrency
    let convertVolumeStr := "24h_volume_" ++ customCurrStr
    Go.val (GoMap.literal [("24h_volume_usd", v.USD), (convertVolumeStr, customCurrValue)])
  else
    Go.val (GoMap.literal [("24h_volume_usd", v.USD)])

/-- The Go method `MarketCap.Fields` (coinmarketcap.go:301-316). -/
def MarketCap.Fields {V T E : Type} (lib : Lib V T E) (mc : MarketCap V)
    (reqCurrency : String) : Go (Fields V) :=
  if reqCurrency ≠ "" then
    (Value.Float (FieldByName mc.structFields (lib.ToUpper reqCurrency))).bind fun customCurrValue =>
    let customCurrStr := lib.ToLower reqCurrency
    let convertMarketCapStr := "market_cap_" ++ customCurrStr
    Go.val (GoMap.literal [("market_cap_usd", mc.USD), (convertMarketCapStr, customCurrValue)])
  else
    Go.val (GoMap.literal [("market_cap_usd", mc.USD)])

/-- The loop `for k, v := range src { if _, ok := src[k]; ok { dst[k] = v } }`
(coinmarketcap.go:126-142), visiting the entries of `src` in the order `lib.rangeOrder`. -/
def rangeCopy {V T E : Type} (lib : Lib V T E) (src dst : Fields V) : Fields V :=
  (lib.rangeOrder src).foldl
    (fun fields kv => if (GoMap.get? src kv.1).isSome then GoMap.set fields kv.1 kv.2 else fields)
    dst

/-- The Go method `Ticker.MarshalInfluxdbLineProto` (coinmarketcap.go:110-151). The value
returned is the pair `(models.Point, error)`, the point being `nil` (`none`) beside an
error. -/
def Ticker.MarshalInfluxdbLineProto {V T E : Type} (lib : Lib V T E) (t : Ticker V T)
    (exchange : String) : Go (Option (Point V T) × Option E) :=
  let name := t.ID
  let tagsMap : GoMap String := GoMap.literal [("symbol", t.Symbol)]
  let tags := NewTags tagsMap
  let fields : Fields V := []
  (t.Price.Fields lib exchange).bind fun priceFields =>
  (t.Volume.Fields lib exchange).bind fun volumeFields =>
  (t.MarketCap.Fields lib exchange).bind fun marketCapFields =>
  let fields := rangeCopy lib priceFields fields
  let fields := rangeCopy lib volumeFields fields
  let fields := rangeCopy lib marketCapFields fields
  match NewPoint lib name tags fields t.LastUpdated with
  | (_, some err) => Go.val (none, some err)
  | (point, none) => Go.val (point, none)

/-! ## The quote fetcher -/

/-- A Go `error` value as `GetNewTick` returns it: one the package itself makes with
`fmt.Errorf`, or one handed on unchanged from a library call. -/
inductive Error (E : Type) where
  | errorf (msg : String)
  | lib (e : E)

/-- The outside world of the fetcher: `http.Get` (a response `R` or an error),
`ioutil.ReadAll` on the response body (the bytes `B` or an error) and `json.Unmarshal` of the
body into a `[]Ticker`. -/
structure Net (V T E R B : Type) where
  Get : String → Except E R
  ReadAll : R → Except E B
  Unmarshal : B → Except E (List (Ticker V T))

/-- The zero value `Price{}`. -/
def Price.zero (V : Type) [Zero V] : Price V :=
  { AUD := 0, BRL := 0, BTC := 0, CAD := 0, CHF := 0, CLP := 0, CNY := 0,
    CZK := 0, DKK := 0, EUR := 0, GBP := 0, HKD := 0, HUF := 0, IDR := 0,
    ILS := 0, INR := 0, JPY := 0, KRW := 0, MXN := 0, MYR := 0, NOK := 0,
    NZD := 0, PHP := 0, PKR := 0, PLN := 0, RUB := 0, SEK := 0, SGD := 0,
    THB := 0, TRY := 0, TWD := 0, USD := 0, ZAR := 0 }

/-- The zero value `Volume{}`. -/
def Volume.zero (V : Type) [Zero V] : Volume V :=
  { AUD := 0, BRL := 0, CAD := 0, CHF := 0, CLP := 0, CNY := 0, CZK := 0,
    DKK := 0, EUR := 0, GBP := 0, HKD := 0, HUF := 0, IDR := 0, ILS := 0,
    INR := 0, JPY := 0, KRW := 0, MXN := 0, MYR := 0, NOK := 0, NZD := 0,
    PHP := 0, PKR := 0, PLN := 0, RUB := 0, SEK := 0, SGD := 0, THB := 0,
    TRY := 0, TWD := 0, USD := 0, ZAR := 0 }

/-- The zero value `MarketCap{}`. -/
def MarketCap.zero (V : Type) [Zero V] : MarketCap V :=
  { AUD := 0, BRL := 0, CAD := 0, CHF := 0, CLP := 0, CNY := 0, CZK := 0,
    DKK := 0, EUR := 0, GBP := 0, HKD := 0, HUF := 0, IDR := 0, ILS := 0,
    INR := 0, JPY := 0, KRW := 0, MXN := 0, MYR := 0, NOK := 0, NZD := 0,
    PHP := 0, PKR := 0, PLN := 0, RUB := 0, SEK := 0, SGD := 0, THB := 0,
    TRY := 0, TWD := 0, USD := 0, ZAR := 0 }

/-- The zero value `Ticker{}`. -/
def Ticker.zero (V T : Type) [Zero V] [Zero T] : Ticker V T :=
  { ID := "", Name := "", Symbol := "", Rank := 0, AvailableSupply := 0, TotalSupply := 0,
    MaxSupply := 0, LastUpdated := 0, Price := Price.zero V, Volume := Volume.zero V,
    MarketCap := MarketCap.zero V, requestedCurrency := "" }

/-- What a call of `GetNewTick` did: the URLs it requested with `http.Get`, in order, and
how it ended (the returned pair `(Ticker, error)`, or a panic). -/
structure Fetch (V T E : Type) where
  requests : List String
  outcome : Go (Ticker V T × Option (Error E))

/-- The Go function `GetNewTick` (coinmarketcap.go:34-63). The indexing `ticks[0]` panics on
an empty slice. -/
def GetNewTick {V T E R B : Type} [Zero V] [Zero T] (net : Net V T E R B)
    (crypto exchange : String) : Fetch V T E :=
  if crypto = "" then
    ⟨[], Go.val (Ticker.zero V T, some (Error.errorf "crypto currency not specified"))⟩
  else
    let url :=
      if exchange = "" then
        "https://api.coinmarketcap.com/v1/ticker/" ++ crypto ++ "/"
      else
        "https://api.coinmarketcap.com/v1/ticker/" ++ crypto ++ "/?convert=" ++ exchange
    match net.Get url with
    | Except.error err => ⟨[url], Go.val (Ticker.zero V T, some (Error.lib err))⟩
    | Except.ok resp =>
      match net.ReadAll resp with
      | Except.error err => ⟨[url], Go.val (Ticker.zero V T, some (Error.lib err))⟩
      | Except.ok body =>
        match net.Unmarshal body with
        | Except.error err => ⟨[url], Go.val (Ticker.zero V T, some (Error.lib err))⟩
        | Except.ok ticks =>
          match ticks with
          | [] => ⟨[url], Go.panic "runtime error: index out of range [0] with length 0"⟩
          | t :: _ => ⟨[url], Go.val (t, none)⟩

/-! ## The collection loop of `cmd/trend/main.go`

The goroutines of `main` (signal handler, collector, persister, the final loop of `main`
itself) as one transition system. An `Event` is one scheduling choice together with what the
outside world answers; `step` is defined exactly when that event can happen. Ticks have type
`Tk`, points type `P`. `encode` is the call `pt := t.MarshalInfluxdbLineProto(*convert)` of
main.go:74, which main.go uses as a call with a single result, the point; it is `none` when
the call panics, and a panic ends the process. -/

/-- Where the collector goroutine `collectAllCryptos` (main.go:116-132) stands: at its
`select`, inside `for _, t := range ts { ticks <- t }` with the ticks still to send, or
returned. -/
inductive Collector (Tk : Type) where
  | idle
  | sending (pending : List Tk)
  | stopped

/-- The collector after it has the ticks `ts` left to send: back at the `select` when none is
left. -/
def Collector.emit {Tk : Type} (ts : List Tk) : Collector Tk :=
  match ts with
  | [] => Collector.idle
  | t :: rest => Collector.sending (t :: rest)

/-- Where the persister goroutine (main.go:64-88) stands: at its `select`, holding a tick it
received and has not yet written, blocked on `logs <- "wrote to influx\n"`, or at
`done <- struct{}{}` after it took the quit case. -/
inductive Persister (Tk : Type) where
  | select
  | holding (t : Tk)
  | logging
  | signalling

/-- The state of the process. `quit`: the channel `quit` is closed. `done`: how many values
sit in the buffer of `done` (capacity 1). `running`: the process has not ended. `writes`: the
batches handed to `c.Write` so far, oldest first. -/
structure Sys (Tk P : Type) where
  quit : Bool
  collector : Collector Tk
  persister : Persister Tk
  done : Nat
  running : Bool
  writes : List (List P)

/-- One move of the process.
* `signal`: SIGINT or SIGTERM arrives and the signal goroutine closes `quit`.
* `fetch r`: the collector takes `case <-ticker.C` and `trend.GetNewTicks` returns `r`.
* `collectorQuit`: the collector takes `case <-quit`.
* `handoff`: the collector's `ticks <- t` meets the persister's `case t := <-ticks`.
* `batchFailed`: the persister's `client.NewBatchPoints` returns an error.
* `write r`: the persister encodes the tick it holds, adds the point to a new batch and
  calls `c.Write`, which returns `r`.
* `logDelivered`: the persister's `logs <- ...` meets `case l := <-logs` of `main`.
* `persisterQuit`: the persister takes `case <-quit`.
* `doneSent`: the persister's `done <- struct{}{}` goes through.
* `exit`: `main` takes `case <-done` and calls `os.Exit(-1)`. -/
inductive Event (Tk E : Type) where
  | signal
  | fetch (r : Except E (List Tk))
  | collectorQuit
  | handoff
  | batchFailed
  | write (r : Option E)
  | logDelivered
  | persisterQuit
  | doneSent
  | exit

/-- The state at the start of `main`, once the goroutines are launched. -/
def Sys.init (Tk P : Type) : Sys Tk P :=
  ⟨false, Collector.idle, Persister.select, 0, true, []⟩

/-- The transition function: the state after event `e`, `none` when `e` cannot happen in
`s`. Nothing happens once the process has ended. -/
def step {Tk P E : Type} (encode : Tk → Option P) (s : Sys Tk P) (e : Event Tk E) :
    Option (Sys Tk P) :=
  if s.running = false then none else
  match e with
  | Event.signal => some { s with quit := true }
  | Event.fetch r =>
    match s.collector with
    | Collector.idle =>
      match r with
      | Except.error _ => some { s with running := false }
      | Except.ok ts => some { s with collector := Collector.emit ts }
    | _ => none
  | Event.collectorQuit =>
    match s.collector with
    | Collector.idle => if s.quit then some { s with collector := Collector.stopped } else none
    | _ => none
  | Event.handoff =>
    match s.collector, s.persister with
    | Collector.sending (t :: rest), Persister.select =>
      some { s with collector := Collector.emit rest, persister := Persister.holding t }
    | _, _ => none
  | Event.batchFailed =>
    match s.persister with
    | Persister.holding _ => some { s with running := false }
    | _ => none
  | Event.write r =>
    match s.persister with
    | Persister.holding t =>
      match encode t with
      | none => some { s with running := false }
      | some pt =>
        match r with
        | some _ => some { s with persister := Persister.select, writes := s.writes ++ [[pt]] }
        | none => some { s with persister := Persister.logging, writes := s.writes ++ [[pt]] }
    | _ => none
  | Event.logDelivered =>
    match s.persister with
    | Persister.logging => some { s with persister := Persister.select }
    | _ => none
  | Event.persisterQuit =>
    match s.persister with
    | Persister.select => if s.quit then some { s with persister := Persister.signalling } else none
    | _ => none
  | Event.doneSent =>
    match s.persister with
    | Persister.signalling =>
      if s.done < 1 then some { s with persister := Persister.select, done := s.done + 1 }
      else none
    | _ => none
  | Event.exit =>
    if 0 < s.done then some { s with done := s.done - 1, running := false } else none

/-- The state after a sequence of events, `none` when one of them cannot happen. -/
def run {Tk P E : Type} (encode : Tk → Option P) (s : Sys Tk P) (evs : List (Event Tk E)) :
    Option (Sys Tk P) :=
  match evs with
  | [] => some s
  | e :: rest =>
    match step encode s e with
    | none => none
    | some s' => run encode s' rest

/-- The ticks one event brings into the process: the list a successful fetch returns. -/
def Event.fetched {Tk E : Type} (e : Event Tk E) : List Tk :=
  match e with
  | Event.fetch (Except.ok ts) => ts
  | _ => []

/-- The concatenation of the lists returned by the successful fetches of a run, in order. -/
def fetchedBy {Tk E : Type} (evs : List (Event Tk E)) : List Tk :=
  match evs with
  | [] => []
  | e :: rest => e.fetched ++ fetchedBy rest

/-- The ticks the collector has fetched and not yet sent. -/
def Collector.pending {Tk : Type} (c : Collector Tk) : List Tk :=
  match c with
  | Collector.sending ts => ts
  | _ => []

/-- The tick the persister has received and not yet written, if any. -/
def Persister.inHand {Tk : Type} (p : Persister Tk) : List Tk :=
  match p with
  | Persister.holding t => [t]
  | _ => []

/-! ## Currency codes -/

/-- The 32 currency codes that name a field in each of `Price`, `Volume` and `MarketCap`. -/
def currencyCodes : List String :=
  ["AUD", "BRL", "CAD", "CHF", "CLP", "CNY", "CZK", "DKK", "EUR", "GBP", "HKD", "HUF", "IDR",
   "ILS", "INR", "JPY", "KRW", "MXN", "MYR", "NOK", "NZD", "PHP", "PKR", "PLN", "RUB", "SEK",
   "SGD", "THB", "TRY", "TWD", "USD", "ZAR"]

/-- The names of the fields a struct declares, as `reflect` lists them. -/
def fieldNames {V : Type} (structFields : List (String × V)) : List String :=
  structFields.map Prod.fst

/-! ## Concrete values for the scenarios -/

/-- The `time.Time` values the program makes: the zero value, and `time.Unix(sec, 0)`
(coinmarketcap.go:106). -/
inductive Time where
  | zero
  | unix (sec : Int)

instance : Zero Time := ⟨Time.zero⟩

instance : Zero Float := ⟨0⟩

/-- The Tick of the scenario: ID "bitcoin", symbol "BTC", prices USD 50000, AUD 70000 and
BTC 1, last updated 2021-01-01T00:00:00Z (Unix time 1609459200), every other field zero. -/
def bitcoinTick : Ticker Float Time :=
  { Ticker.zero Float Time with
    ID := "bitcoin"
    Symbol := "BTC"
    LastUpdated := Time.unix 1609459200
    Price := { Price.zero Float with USD := 50000, AUD := 70000, BTC := 1 } }

/-- A `float64` value, as far as `models.NewPoint` tells values apart: a finite number, an
infinity, or NaN. -/
inductive Float64 where
  | finite (x : ℚ)
  | inf (negative : Bool)
  | nan

instance : Zero Float64 := ⟨Float64.finite 0⟩

/-- The check of one field in the library function `pointKey`: a `float64` that is infinite
or NaN is refused, and so is an empty field name. -/
def fieldError (kv : String × Float64) : Option String :=
  match kv.2 with
  | Float64.inf _ => some ("+/-Inf is an unsupported value for field " ++ kv.1)
  | Float64.nan => some ("NaN is an unsupported value for field " ++ kv.1)
  | Float64.finite _ =>
    if kv.1 = "" then some "all fields must have non-empty names" else none

/-- The time check of the library function `pointKey`: the zero time is not checked;
`CheckTime` wants a time between `MinNanoTime` and `MaxNanoTime` nanoseconds. -/
def Time.inRange (t : Time) : Bool :=
  match t with
  | Time.zero => true
  | Time.unix sec =>
    decide (-9223372036854775806 ≤ sec * 1000000000 ∧
      sec * 1000000000 ≤ 9223372036854775806)

/-- The size check of one field in the library function `pointKey`: `seriesKeySize`, the
bytes of the series key, of the separator (4 bytes) and of the field name, is at most
`MaxKeyLength`. -/
def keySizeError (key : List Char) (kv : String × Float64) : Option String :=
  if (String.mk key).utf8ByteSize + 4 + kv.1.utf8ByteSize > 65535 then
    some "max key length exceeded"
  else none

/-- The library function `pointKey` of `models/points.go`, the validation of
`models.NewPoint`, on `float64` fields: `none` when the point is accepted. -/
def pointKey (measurement : String) (tags : Tags) (fields : Fields Float64) (t : Time) :
    Option String :=
  if fields.length = 0 then some "point without fields is unsupported"
  else if t.inRange = false then some "time outside range"
  else
    match fields.findSome? fieldError with
    | some err => some err
    | none => fields.findSome? (keySizeError (MakeKey measurement tags))

/-- The library instance with the validation of `models.NewPoint` spelled out: ASCII case
mapping, `range` visiting entries in stored order, and `pointKey`. -/
def influxLib : Lib Float64 Time String where
  ToUpper := fun s => String.mk (s.data.map Char.toUpper)
  ToLower := fun s => String.mk (s.data.map Char.toLower)
  rangeOrder := fun m => m
  rangeOrder_perm := fun m => List.Perm.refl m
  pointKey := pointKey

/-- The Tick of the scenario with `float64` values that can be told apart. -/
def quoteTick : Ticker Float64 Time :=
  { Ticker.zero Float64 Time with
    ID := "bitcoin"
    Symbol := "BTC"
    LastUpdated := Time.unix 1609459200
    Price := { Price.zero Float64 with
      USD := Float64.finite 50000, AUD := Float64.finite 70000, BTC := Float64.finite 1 } }

/-- The Tick `quoteTick` with the USD price NaN. -/
def nanTick : Ticker Float64 Time :=
  { quoteTick with Price := { quoteTick.Price with USD := Float64.nan } }

/-- The Tick of the scenario with an empty Symbol. -/
def noSymbolTick : Ticker Float Time :=
  { bitcoinTick with Symbol := "" }

/-- The Tick of the scenario with an empty ID. -/
def noIDTick : Ticker Float Time :=
  { bitcoinTick with ID := "" }

/-- The Tick of the scenario with a backslash at the end of its ID. -/
def backslashTick : Ticker Float Time :=
  { bitcoinTick with ID := String.mk ("bitcoin".data ++ [backslash]) }

/-- A network whose quote endpoint answers every request with the body `[]`, which
`json.Unmarshal` decodes to a slice of length 0. -/
def emptyArrayNet : Net Float Time String Unit String where
  Get := fun _ => Except.ok ()
  ReadAll := fun _ => Except.ok "[]"
  Unmarshal := fun body =>
    if body = "[]" then Except.ok [] else Except.error "json: cannot unmarshal"

/-- A network whose quote endpoint answers every request with one record, `bitcoinTick`. -/
def bitcoinNet : Net Float Time String Unit String where
  Get := fun _ => Except.ok ()
  ReadAll := fun _ => Except.ok "[bitcoin]"
  Unmarshal := fun _ => Except.ok [bitcoinTick]

/-! ## Statements about the collection loop -/

/-- No tick is lost, repeated or reordered on its way through the process: the ticks
fetched so far, `F`, are the ticks `ws` already written, then the tick the persister holds,
then the ticks the collector still has to send; and the batches written are, in order, one
batch per tick of `ws`, holding the single point that tick encodes to. -/
def Sys.Conserves {Tk P : Type} (encode : Tk → Option P) (F : List Tk) (s : Sys Tk P) : Prop :=
  ∃ ws : List Tk,
    s.writes.map (List.map some) = ws.map (fun t => [encode t]) ∧
    F = ws ++ s.persister.inHand ++ s.collector.pending

/-- Whether the persister holds a tick it has received and not yet written. -/
def Persister.isHolding {Tk : Type} (p : Persister Tk) : Bool :=
  match p with
  | Persister.holding _ => true
  | _ => false

/-! ## Statements about maps -/

/-- The map `m` holds exactly the listed entries: the listed keys are pairwise distinct, and
`m` consists of these entries, in some arrangement. -/
def GoMap.IsExactly {V : Type} (m : GoMap V) (entries : List (String × V)) : Prop :=
  (entries.map Prod.fst).Nodup ∧ m.Perm entries

/-! ## Lemmas on maps -/

theorem GoMap.get?_of_mem {V : Type} (m : GoMap V) (k : String) (v : V)
    (hnd : m.keys.Nodup) (h : (k, v) ∈ m) : m.get? k = some v := by
  induction m with
  | nil => cases h
  | cons kv rest ih =>
    obtain ⟨k', v'⟩ := kv
    simp only [GoMap.keys, List.map_cons, List.nodup_cons] at hnd
    rcases List.mem_cons.mp h with heq | hin
    · cases heq
      simp [GoMap.get?]
    · have hne : ¬ k' = k := by
        intro e
        subst e
        exact hnd.1 (List.mem_map_of_mem Prod.fst hin)
      simp only [GoMap.get?, hne, if_false]
      exact ih hnd.2 hin

theorem GoMap.mem_of_get? {V : Type} (m : GoMap V) (k : String) (v : V)
    (h : m.get? k = some v) : (k, v) ∈ m := by
  induction m with
  | nil => cases h
  | cons kv rest ih =>
    obtain ⟨k', v'⟩ := kv
    by_cases hk : k' = k
    · subst hk
      simp only [GoMap.get?, if_true, Option.some.injEq] at h
      subst h
      exact List.mem_cons_self _ _
    · simp only [GoMap.get?, hk, if_false] at h
      exact List.mem_cons_of_mem _ (ih h)

/-- Reading a map that holds exactly `entries`: `m[k]` is `v` exactly for the listed pairs. -/
theorem GoMap.IsExactly.get?_iff {V : Type} {m : GoMap V} {entries : List (String × V)}
    (h : m.IsExactly entries) (k : String) (v : V) :
    m.get? k = some v ↔ (k, v) ∈ entries := by
  have hnd : m.keys.Nodup := (List.Perm.map Prod.fst h.2).nodup_iff.mpr h.1
  constructor
  · intro hg
    exact h.2.mem_iff.mp (GoMap.mem_of_get? m k v hg)
  · intro hin
    exact GoMap.get?_of_mem m k v hnd (h.2.mem_iff.mpr hin)

theorem GoMap.set_of_not_mem {V : Type} (m : GoMap V) (k : String) (v : V)
    (h : k ∉ m.keys) : m.set k v = m ++ [(k, v)] := by
  induction m with
  | nil => rfl
  | cons kv rest ih =>
    obtain ⟨k', v'⟩ := kv
    simp only [GoMap.keys, List.map_cons, List.mem_cons, not_or] at h
    have hne : ¬ k' = k := fun e => h.1 e.symm
    simp only [GoMap.set, hne, if_false, List.cons_append]
    rw [ih h.2]

/-- Assigning entries with fresh, pairwise distinct keys appends them. -/
theorem GoMap.foldl_set_fresh {V : Type} (o : List (String × V)) (dst : GoMap V)
    (hnd : (o.map Prod.fst).Nodup) (hfresh : ∀ k ∈ o.map Prod.fst, k ∉ dst.keys) :
    o.foldl (fun m kv => GoMap.set m kv.1 kv.2) dst = dst ++ o := by
  induction o generalizing dst with
  | nil => simp
  | cons kv rest ih =>
    simp only [List.map_cons, List.nodup_cons] at hnd
    have h1 : kv.1 ∉ dst.keys := hfresh kv.1 (by simp)
    simp only [List.foldl_cons]
    rw [GoMap.set_of_not_mem dst kv.1 kv.2 h1, ih (dst ++ [(kv.1, kv.2)]) hnd.2]
    · simp
    · intro k hk
      simp only [GoMap.keys, List.map_append, List.map_cons, List.map_nil, List.mem_append,
        List.mem_singleton, not_or]
      refine ⟨hfresh k (List.mem_cons_of_mem _ hk), ?_⟩
      intro e
      subst e
      exact hnd.1 hk

/-- A literal whose keys are pairwise distinct is the list of its entries. -/
theorem GoMap.literal_of_nodup {V : Type} (entries : List (String × V))
    (hnd : (entries.map Prod.fst).Nodup) : GoMap.literal entries = entries := by
  unfold GoMap.literal
  rw [GoMap.foldl_set_fresh entries [] hnd (by simp [GoMap.keys])]
  rfl

/-- The copy loop, when the keys of `src` are pairwise distinct and none is in `dst` yet:
the entries of `src` are appended to `dst` in the order the loop visits them. -/
theorem rangeCopy_fresh {V T E : Type} (lib : Lib V T E) (src dst : Fields V)
    (hnd : src.keys.Nodup) (hfresh : ∀ k ∈ src.keys, k ∉ dst.keys) :
    rangeCopy lib src dst = dst ++ lib.rangeOrder src := by
  have hperm := lib.rangeOrder_perm src
  have hkeys : ((lib.rangeOrder src).map Prod.fst).Perm src.keys := List.Perm.map Prod.fst hperm
  have hall : ∀ kv ∈ lib.rangeOrder src, (GoMap.get? src kv.1).isSome = true := by
    intro kv hkv
    have hin : (kv.1, kv.2) ∈ src := hperm.mem_iff.mp hkv
    rw [GoMap.get?_of_mem src kv.1 kv.2 hnd hin]
    rfl
  have hfold : ∀ (o : List (String × V)) (d : Fields V),
      (∀ kv ∈ o, (GoMap.get? src kv.1).isSome = true) →
      o.foldl (fun fields kv =>
        if (GoMap.get? src kv.1).isSome then GoMap.set fields kv.1 kv.2 else fields) d
      = o.foldl (fun m kv => GoMap.set m kv.1 kv.2) d := by
    intro o
    induction o with
    | nil => intro d _; rfl
    | cons kv rest ih =>
      intro d h
      simp only [List.foldl_cons, h kv (List.mem_cons_self _ _), if_true]
      exact ih _ (fun x hx => h x (List.mem_cons_of_mem _ hx))
  unfold rangeCopy
  rw [hfold _ _ hall]
  exact GoMap.foldl_set_fresh _ dst (hkeys.nodup_iff.mpr hnd)
    (fun k hk => hfresh k (hkeys.mem_iff.mp hk))

/-! ## Lemmas on keys and field names -/

theorem prefix_cancel (p a b : String) : p ++ a = p ++ b ↔ a = b := by
  constructor
  · intro h
    have hd := congrArg String.data h
    simp only [String.data_append, List.append_cancel_left_eq] at hd
    exact String.ext hd
  · intro h
    rw [h]

theorem metric_prefixes_differ (x y : String) :
    "price_" ++ x ≠ "24h_volume_" ++ y ∧ "price_" ++ x ≠ "market_cap_" ++ y ∧
      "24h_volume_" ++ x ≠ "market_cap_" ++ y := by
  refine ⟨?_, ?_, ?_⟩ <;>
  · intro h
    have hd := congrArg String.data h
    simp [String.data_append] at hd

/-- The seven keys of an encoding with a conversion currency `c` other than `usd` and `btc`
are pairwise distinct. -/
theorem seven_keys_nodup (c : String) (h1 : c ≠ "usd") (h2 : c ≠ "btc") :
    ["price_usd", "price_btc", "price_" ++ c, "24h_volume_usd", "24h_volume_" ++ c,
      "market_cap_usd", "market_cap_" ++ c].Nodup := by
  have e1 : ("price_usd" : String) = "price_" ++ "usd" := by decide
  have e2 : ("price_btc" : String) = "price_" ++ "btc" := by decide
  have e3 : ("24h_volume_usd" : String) = "24h_volume_" ++ "usd" := by decide
  have e4 : ("market_cap_usd" : String) = "market_cap_" ++ "usd" := by decide
  have hub : ("usd" : String) ≠ "btc" := by decide
  rw [e1, e2, e3, e4]
  have d := metric_prefixes_differ
  simp only [List.nodup_cons, List.mem_cons, List.mem_singleton, List.not_mem_nil, not_or,
    prefix_cancel, List.nodup_nil, and_true, not_false_eq_true]
  refine ⟨⟨hub, Ne.symm h1, (d _ _).1, (d _ _).1, (d _ _).2.1, (d _ _).2.1⟩,
    ⟨Ne.symm h2, (d _ _).1, (d _ _).1, (d _ _).2.1, (d _ _).2.1⟩,
    ⟨(d _ _).1, (d _ _).1, (d _ _).2.1, (d _ _).2.1⟩,
    ⟨Ne.symm h1, (d _ _).2.2, (d _ _).2.2⟩, ⟨(d _ _).2.2, (d _ _).2.2⟩, Ne.symm h1⟩

theorem FieldByName_isSome_iff {V : Type} (l : List (String × V)) (name : String) :
    (FieldByName l name).isSome = true ↔ name ∈ fieldNames l := by
  induction l with
  | nil => simp [FieldByName, fieldNames]
  | cons kv rest ih =>
    obtain ⟨n, v⟩ := kv
    by_cases hn : n = name
    · simp [FieldByName, fieldNames, hn]
    · have hn' : ¬ name = n := fun e => hn e.symm
      simp only [FieldByName, hn, if_false, fieldNames, List.map_cons, List.mem_cons, hn',
        false_or]
      exact ih

theorem FieldByName_of_mem {V : Type} (l : List (String × V)) (name : String)
    (h : name ∈ fieldNames l) : ∃ x, FieldByName l name = some x := by
  have hs := (FieldByName_isSome_iff l name).mpr h
  exact Option.isSome_iff_exists.mp hs

theorem Float_panics_iff {V : Type} (l : List (String × V)) (name : String) :
    (Value.Float (FieldByName l name)).panics = false ↔ name ∈ fieldNames l := by
  rw [← FieldByName_isSome_iff]
  cases FieldByName l name <;> simp [Value.Float, Go.panics]

theorem Volume_fieldNames_eq {V : Type} (v : Volume V) :
    fieldNames v.structFields = currencyCodes := rfl

theorem MarketCap_fieldNames_eq {V : Type} (mc : MarketCap V) :
    fieldNames mc.structFields = currencyCodes := rfl

theorem Price_fieldNames_eq {V : Type} (p : Price V) :
    fieldNames p.structFields = "AUD" :: "BRL" :: "BTC" :: currencyCodes.drop 2 := rfl

theorem Price.mem_fieldNames {V : Type} (p : Price V) (name : String) :
    name ∈ fieldNames p.structFields ↔ name = "BTC" ∨ name ∈ currencyCodes := by
  have hc : currencyCodes = "AUD" :: "BRL" :: currencyCodes.drop 2 := rfl
  rw [Price_fieldNames_eq]
  conv_rhs => rw [hc]
  generalize currencyCodes.drop 2 = others
  simp only [List.mem_cons]
  tauto

/-! ## Lemmas on the series key -/

theorem unescapeCode_cons (c x : Char) (s : List Char) (hx : x ≠ backslash) :
    unescapeCode c (x :: s) = x :: unescapeCode c s := by
  cases s with
  | nil => simp [unescapeCode]
  | cons y rest => simp [unescapeCode, hx]

theorem Unescape_cons (x : Char) (s : List Char) (hx : x ≠ backslash) :
    Unescape (x :: s) = x :: Unescape s := by
  cases s with
  | nil => simp [Unescape]
  | cons y rest => simp [Unescape, hx]

theorem unescapeCode_of_no_backslash (c : Char) (s : List Char) (h : backslash ∉ s) :
    unescapeCode c s = s := by
  induction s with
  | nil => rfl
  | cons x xs ih =>
    simp only [List.mem_cons, not_or] at h
    rw [unescapeCode_cons c x xs (Ne.symm h.1), ih h.2]

theorem escapeCodes_nil_codes (s : List Char) : escapeCodes [] s = s := by
  induction s with
  | nil => rfl
  | cons x xs ih => simp [escapeCodes, ih]

theorem escapeCodes_eq_nil (codes s : List Char) (h : escapeCodes codes s = []) : s = [] := by
  cases s with
  | nil => rfl
  | cons x xs =>
    simp only [escapeCodes] at h
    split at h <;> cases h

theorem escapeCodes_of_no_backslash (codes s : List Char)
    (h : backslash ∉ escapeCodes codes s) : escapeCodes codes s = s := by
  induction s with
  | nil => rfl
  | cons x xs ih =>
    simp only [escapeCodes] at h ⊢
    split at h
    · simp at h
    · rename_i hx
      simp only [List.mem_cons, not_or] at h
      simp [hx, ih h.2]

/-- Undoing one escape code on an escaped string. -/
theorem unescapeCode_escapeCodes (c : Char) (codes s : List Char) (hc : c ∈ codes)
    (hb : backslash ∉ codes) :
    unescapeCode c (escapeCodes codes s) = escapeCodes (codes.filter (fun d => d ≠ c)) s := by
  have hcb : c ≠ backslash := fun e => hb (e ▸ hc)
  induction s with
  | nil => rfl
  | cons x xs ih =>
    by_cases hin : x ∈ codes
    · have hx : x ≠ backslash := fun e => hb (e ▸ hin)
      by_cases hxc : x = c
      · subst hxc
        simp [escapeCodes, hin, unescapeCode, ih]
      · have hxc2 : ¬ (backslash = backslash ∧ x = c) := fun hh => hxc hh.2
        simp only [escapeCodes, hin, if_true]
        rw [unescapeCode, if_neg hxc2, unescapeCode_cons c x _ hx, ih]
        simp [List.mem_filter, hin, hxc]
    · have hfil : x ∉ codes.filter (fun d => d ≠ c) := fun hm => hin (List.mem_filter.mp hm).1
      simp only [escapeCodes, hin, hfil, if_false]
      rw [← ih]
      by_cases hx : x = backslash
      · cases hT : escapeCodes codes xs with
        | nil => simp [unescapeCode]
        | cons y rest =>
          have hy : y ≠ c := by
            intro hyc
            cases xs with
            | nil => simp [escapeCodes] at hT
            | cons z zs =>
              simp only [escapeCodes] at hT
              split at hT
              · injection hT with h1 _
                exact hcb (hyc ▸ h1).symm
              · rename_i hz
                injection hT with h1 _
                exact hz (h1 ▸ hyc ▸ hc)
          have hcond : ¬ (x = backslash ∧ y = c) := fun hh => hy hh.2
          rw [unescapeCode, if_neg hcond]
      · exact unescapeCode_cons c x _ hx

theorem unescapeTag_escape (s : List Char) :
    unescapeTag (escapeCodes tagEscapeCodes s) = s := by
  unfold unescapeTag
  split
  · rw [unescapeCode_escapeCodes comma _ s (by decide) (by decide),
      unescapeCode_escapeCodes space _ s (by decide) (by decide),
      unescapeCode_escapeCodes equals _ s (by decide) (by decide)]
    have : ((tagEscapeCodes.filter (fun d => d ≠ comma)).filter (fun d => d ≠ space)).filter
        (fun d => d ≠ equals) = [] := by decide
    rw [this, escapeCodes_nil_codes]
  · rename_i hno
    exact escapeCodes_of_no_backslash _ _ hno

theorem Unescape_escape (s : List Char) (h : backslash ∉ s) :
    Unescape (escapeCodes measurementEscapeCodes s) = s := by
  induction s with
  | nil => rfl
  | cons x xs ih =>
    simp only [List.mem_cons, not_or] at h
    have hx : x ≠ backslash := Ne.symm h.1
    by_cases hin : x ∈ measurementEscapeCodes
    · have hin4 : x ∈ [comma, quote, space, equals] := by
        simp only [measurementEscapeCodes, List.mem_cons, List.mem_singleton,
          List.not_mem_nil, or_false] at hin
        rcases hin with h1 | h1 <;> simp [h1]
      simp only [escapeCodes, hin, if_true]
      rw [Unescape, if_pos ⟨rfl, hin4⟩, ih h.2]
    · simp only [escapeCodes, hin, if_false]
      rw [Unescape_cons x _ hx, ih h.2]

/-- Scanning for `stop` runs through an escaped string up to a `stop` that follows it. -/
theorem scanTo_escape (stop : Char) (codes : List Char) (hs : stop ∈ codes)
    (hsb : stop ≠ backslash) (s r : List Char) (h : backslash ∉ s) :
    ∀ prev : Option Char, prev ≠ some backslash →
      scanTo stop prev (escapeCodes codes s ++ stop :: r) = (escapeCodes codes s, stop :: r) := by
  induction s with
  | nil =>
    intro prev hp
    simp [escapeCodes, scanTo, hp]
  | cons x xs ih =>
    intro prev hp
    simp only [List.mem_cons, not_or] at h
    have hx : x ≠ backslash := Ne.symm h.1
    have hbs : ¬ (backslash = stop ∧ prev ≠ some backslash) := fun hh => hsb hh.1.symm
    have hnext := ih h.2 (some x) (by simpa using hx)
    by_cases hin : x ∈ codes
    · have hx2 : ¬ (x = stop ∧ some backslash ≠ some backslash) := fun hh => hh.2 rfl
      simp only [escapeCodes, hin, if_true, List.cons_append]
      rw [scanTo, if_neg hbs, scanTo, if_neg hx2, hnext]
    · have hxs : ¬ (x = stop ∧ prev ≠ some backslash) := fun hh => hin (hh.1 ▸ hs)
      simp only [escapeCodes, hin, if_false, List.cons_append]
      rw [scanTo, if_neg hxs, hnext]

/-- Scanning for `stop` runs through an escaped string to its end. -/
theorem scanTo_escape_end (stop : Char) (codes : List Char) (hs : stop ∈ codes)
    (hsb : stop ≠ backslash) (s : List Char) :
    ∀ prev : Option Char, scanTo stop prev (escapeCodes codes s) = (escapeCodes codes s, []) := by
  induction s with
  | nil =>
    intro prev
    simp [escapeCodes, scanTo]
  | cons x xs ih =>
    intro prev
    have hbs : ¬ (backslash = stop ∧ prev ≠ some backslash) := fun hh => hsb hh.1.symm
    by_cases hin : x ∈ codes
    · have hx2 : ¬ (x = stop ∧ some backslash ≠ some backslash) := fun hh => hh.2 rfl
      simp only [escapeCodes, hin, if_true]
      rw [scanTo, if_neg hbs, scanTo, if_neg hx2, ih]
    · have hxs : ¬ (x = stop ∧ prev ≠ some backslash) := fun hh => hin (hh.1 ▸ hs)
      simp only [escapeCodes, hin, if_false]
      rw [scanTo, if_neg hxs, ih]

theorem escapeCodes_ne_nil (codes s : List Char) (h : s ≠ []) : escapeCodes codes s ≠ [] :=
  fun he => h (escapeCodes_eq_nil codes s he)

/-- The tag loop on a key part that holds one escaped tag. -/
theorem tagsLoop_single (fuel : Nat) (hasEscape : Bool) (prev : Char) (k v : List Char)
    (hk : backslash ∉ k) (hkne : k ≠ []) (hvne : v ≠ []) (hp : prev ≠ backslash) :
    tagsLoop (fuel + 1) hasEscape prev
        (escapeCodes tagEscapeCodes k ++ equals :: escapeCodes tagEscapeCodes v) =
      [if hasEscape then
          (String.mk (unescapeTag (escapeCodes tagEscapeCodes k)),
            String.mk (unescapeTag (escapeCodes tagEscapeCodes v)))
        else (String.mk (escapeCodes tagEscapeCodes k),
          String.mk (escapeCodes tagEscapeCodes v))] := by
  have hscan := scanTo_escape equals tagEscapeCodes (by decide) (by decide) k
    (escapeCodes tagEscapeCodes v) hk (some prev) (by simpa using hp)
  have hval := scanTo_escape_end comma tagEscapeCodes (by decide) (by decide) v (some equals)
  have hvn := escapeCodes_ne_nil tagEscapeCodes v hvne
  cases hb : escapeCodes tagEscapeCodes k with
  | nil => exact absurd hb (escapeCodes_ne_nil tagEscapeCodes k hkne)
  | cons b bs =>
    rw [hb] at hscan
    simp only [List.cons_append] at hscan ⊢
    simp only [tagsLoop, hscan, hval, hvn, if_false]

theorem parseName_MakeKey (name sym : String) (h : backslash ∉ name.data) :
    parseName (MakeKey name [("symbol", sym)]) = name := by
  have hu : unescapeMeasurement name.data = name.data := by
    unfold unescapeMeasurement
    rw [unescapeCode_of_no_backslash comma _ h, unescapeCode_of_no_backslash space _ h]
  unfold parseName MakeKey
  rw [hu]
  simp only [HashKey, List.append_nil]
  split
  · rw [List.append_nil, scanTo_escape_end comma measurementEscapeCodes (by decide) (by decide)
      name.data none, Unescape_escape name.data h]
  · rw [scanTo_escape comma measurementEscapeCodes (by decide) (by decide) name.data _ h none
      (by simp), Unescape_escape name.data h]

theorem parseTags_MakeKey (name sym : String) (hn : backslash ∉ name.data) (hne : name ≠ "")
    (hse : sym ≠ "") :
    parseTags (MakeKey name [("symbol", sym)]) = [("symbol", sym)] := by
  have hu : unescapeMeasurement name.data = name.data := by
    unfold unescapeMeasurement
    rw [unescapeCode_of_no_backslash comma _ hn, unescapeCode_of_no_backslash space _ hn]
  have hnd : name.data ≠ [] := fun he => hne (String.ext he)
  have hsd : sym.data ≠ [] := fun he => hse (String.ext he)
  have hkb : backslash ∉ ("symbol" : String).data := by decide
  have hkn : ("symbol" : String).data ≠ [] := by decide
  have hvn := escapeCodes_ne_nil tagEscapeCodes sym.data hsd
  have hkey : MakeKey name [("symbol", sym)] =
      escapeCodes measurementEscapeCodes name.data ++
        comma :: (escapeCodes tagEscapeCodes ("symbol" : String).data ++
          equals :: escapeCodes tagEscapeCodes sym.data) := by
    unfold MakeKey
    rw [hu]
    simp only [HashKey, hvn, if_false, List.append_nil]
  have hscan := scanTo_escape comma measurementEscapeCodes (by decide) (by decide) name.data
    (escapeCodes tagEscapeCodes ("symbol" : String).data ++
      equals :: escapeCodes tagEscapeCodes sym.data) hn none (by simp)
  unfold parseTags
  rw [hkey, hscan]
  cases ha : escapeCodes measurementEscapeCodes name.data with
  | nil => exact absurd ha (escapeCodes_ne_nil measurementEscapeCodes name.data hnd)
  | cons a as =>
    simp only
    rw [tagsLoop_single _ _ comma _ _ hkb hkn hsd (by decide)]
    by_cases hesc : backslash ∈ a :: as ++
        comma :: (escapeCodes tagEscapeCodes ("symbol" : String).data ++
          equals :: escapeCodes tagEscapeCodes sym.data)
    · simp only [hesc, decide_True, if_true]
      rw [unescapeTag_escape, unescapeTag_escape]
    · simp only [hesc, decide_False]
      have h1 : backslash ∉ escapeCodes tagEscapeCodes sym.data := by
        intro hin
        exact hesc (by simp [hin])
      rw [escapeCodes_of_no_backslash _ _ h1]
      rfl

/-! ## Lemmas on the encoder -/

theorem price_keys_nodup (c : String) (h1 : c ≠ "usd") (h2 : c ≠ "btc") :
    ["price_usd", "price_btc", "price_" ++ c].Nodup := by
  have e1 : ("price_usd" : String) = "price_" ++ "usd" := by decide
  have e2 : ("price_btc" : String) = "price_" ++ "btc" := by decide
  have hub : ("usd" : String) ≠ "btc" := by decide
  rw [e1, e2]
  simp only [List.nodup_cons, List.mem_cons, List.mem_singleton, List.not_mem_nil, not_or,
    prefix_cancel, List.nodup_nil, and_true, not_false_eq_true]
  exact ⟨⟨hub, Ne.symm h1⟩, Ne.symm h2⟩

theorem volume_keys_nodup (c : String) (h1 : c ≠ "usd") :
    ["24h_volume_usd", "24h_volume_" ++ c].Nodup := by
  have e : ("24h_volume_usd" : String) = "24h_volume_" ++ "usd" := by decide
  rw [e]
  simp only [List.nodup_cons, List.mem_singleton, List.not_mem_nil, prefix_cancel,
    List.nodup_nil, and_true, not_false_eq_true]
  exact Ne.symm h1

theorem market_cap_keys_nodup (c : String) (h1 : c ≠ "usd") :
    ["market_cap_usd", "market_cap_" ++ c].Nodup := by
  have e : ("market_cap_usd" : String) = "market_cap_" ++ "usd" := by decide
  rw [e]
  simp only [List.nodup_cons, List.mem_singleton, List.not_mem_nil, prefix_cancel,
    List.nodup_nil, and_true, not_false_eq_true]
  exact Ne.symm h1

theorem Price_Fields_empty {V T E : Type} (lib : Lib V T E) (p : Price V) :
    p.Fields lib "" = Go.val [("price_usd", p.USD), ("price_btc", p.BTC)] := rfl

theorem Volume_Fields_empty {V T E : Type} (lib : Lib V T E) (v : Volume V) :
    v.Fields lib "" = Go.val [("24h_volume_usd", v.USD)] := rfl

theorem MarketCap_Fields_empty {V T E : Type} (lib : Lib V T E) (mc : MarketCap V) :
    mc.Fields lib "" = Go.val [("market_cap_usd", mc.USD)] := rfl

theorem Price_Fields_conv {V T E : Type} (lib : Lib V T E) (p : Price V) (C : String) (x : V)
    (hC : C ≠ "") (hx : FieldByName p.structFields (lib.ToUpper C) = some x)
    (h1 : lib.ToLower C ≠ "usd") (h2 : lib.ToLower C ≠ "btc") :
    p.Fields lib C =
      Go.val [("price_usd", p.USD), ("price_btc", p.BTC), ("price_" ++ lib.ToLower C, x)] := by
  unfold Price.Fields
  rw [if_pos hC, hx]
  simp only [Value.Float, Go.bind]
  exact congrArg Go.val (GoMap.literal_of_nodup
    [("price_usd", p.USD), ("price_btc", p.BTC), ("price_" ++ lib.ToLower C, x)]
    (price_keys_nodup _ h1 h2))

theorem Volume_Fields_conv {V T E : Type} (lib : Lib V T E) (v : Volume V) (C : String)
    (y : V) (hC : C ≠ "") (hy : FieldByName v.structFields (lib.ToUpper C) = some y)
    (h1 : lib.ToLower C ≠ "usd") :
    v.Fields lib C =
      Go.val [("24h_volume_usd", v.USD), ("24h_volume_" ++ lib.ToLower C, y)] := by
  unfold Volume.Fields
  rw [if_pos hC, hy]
  simp only [Value.Float, Go.bind]
  exact congrArg Go.val (GoMap.literal_of_nodup
    [("24h_volume_usd", v.USD), ("24h_volume_" ++ lib.ToLower C, y)]
    (volume_keys_nodup _ h1))

theorem MarketCap_Fields_conv {V T E : Type} (lib : Lib V T E) (mc : MarketCap V)
    (C : String) (z : V) (hC : C ≠ "")
    (hz : FieldByName mc.structFields (lib.ToUpper C) = some z)
    (h1 : lib.ToLower C ≠ "usd") :
    mc.Fields lib C =
      Go.val [("market_cap_usd", mc.USD), ("market_cap_" ++ lib.ToLower C, z)] := by
  unfold MarketCap.Fields
  rw [if_pos hC, hz]
  simp only [Value.Float, Go.bind]
  exact congrArg Go.val (GoMap.literal_of_nodup
    [("market_cap_usd", mc.USD), ("market_cap_" ++ lib.ToLower C, z)]
    (market_cap_keys_nodup _ h1))

theorem Price_Fields_usd {V T E : Type} (lib : Lib V T E) (p : Price V) (C : String)
    (hU : lib.ToUpper C = "USD") (hL : lib.ToLower C = "usd") :
    p.Fields lib C = p.Fields lib "" := by
  by_cases hC : C = ""
  · rw [hC]
  · unfold Price.Fields
    rw [if_pos hC, hU, hL]
    rfl

theorem Volume_Fields_usd {V T E : Type} (lib : Lib V T E) (v : Volume V) (C : String)
    (hU : lib.ToUpper C = "USD") (hL : lib.ToLower C = "usd") :
    v.Fields lib C = v.Fields lib "" := by
  by_cases hC : C = ""
  · rw [hC]
  · unfold Volume.Fields
    rw [if_pos hC, hU, hL]
    rfl

theorem MarketCap_Fields_usd {V T E : Type} (lib : Lib V T E) (mc : MarketCap V) (C : String)
    (hU : lib.ToUpper C = "USD") (hL : lib.ToLower C = "usd") :
    mc.Fields lib C = mc.Fields lib "" := by
  by_cases hC : C = ""
  · rw [hC]
  · unfold MarketCap.Fields
    rw [if_pos hC, hU, hL]
    rfl

theorem NewPoint_cases {V T E : Type} (lib : Lib V T E) (name : String) (tags : Tags)
    (fields : Fields V) (time : T) :
    (match NewPoint lib name tags fields time with
      | (_, some err) => (Go.val (none, some err) : Go (Option (Point V T) × Option E))
      | (point, none) => Go.val (point, none)) = Go.val (NewPoint lib name tags fields time) := by
  unfold NewPoint
  cases lib.pointKey name tags fields time <;> rfl

theorem NewPoint_fields {V T E : Type} (lib : Lib V T E) (name : String) (tags : Tags)
    (fields : Fields V) (time : T) (pt : Point V T) (err : Option E)
    (h : NewPoint lib name tags fields time = (some pt, err)) :
    pt = ⟨parseName (MakeKey name tags), parseTags (MakeKey name tags), fields, time⟩ ∧
      err = none := by
  unfold NewPoint at h
  cases hk : lib.pointKey name tags fields time with
  | some e => rw [hk] at h; cases h
  | none => rw [hk] at h; cases h; exact ⟨rfl, rfl⟩

/-- The encoder, once the three field maps are known and their keys are pairwise distinct:
the point is built from all their entries, and from nothing else. -/
theorem marshal_of_fields {V T E : Type} (lib : Lib V T E) (t : Ticker V T) (C : String)
    (pf vf mf : Fields V) (hp : t.Price.Fields lib C = Go.val pf)
    (hv : t.Volume.Fields lib C = Go.val vf) (hm : t.MarketCap.Fields lib C = Go.val mf)
    (hnd : ((pf ++ vf ++ mf).map Prod.fst).Nodup) :
    ∃ fields : Fields V, fields.Perm (pf ++ vf ++ mf) ∧
      t.MarshalInfluxdbLineProto lib C =
        Go.val (NewPoint lib t.ID [("symbol", t.Symbol)] fields t.LastUpdated) := by
  refine ⟨lib.rangeOrder pf ++ lib.rangeOrder vf ++ lib.rangeOrder mf, ?_, ?_⟩
  · exact ((lib.rangeOrder_perm pf).append (lib.rangeOrder_perm vf)).append
      (lib.rangeOrder_perm mf)
  · simp only [List.map_append, List.nodup_append, List.Disjoint, List.mem_append] at hnd
    obtain ⟨⟨hpn, hvn, hpv⟩, hmn, hpvm⟩ := hnd
    have kp : ((lib.rangeOrder pf).map Prod.fst).Perm (pf.map Prod.fst) :=
      List.Perm.map Prod.fst (lib.rangeOrder_perm pf)
    have kv : ((lib.rangeOrder vf).map Prod.fst).Perm (vf.map Prod.fst) :=
      List.Perm.map Prod.fst (lib.rangeOrder_perm vf)
    have c1 : rangeCopy lib pf [] = lib.rangeOrder pf := by
      rw [rangeCopy_fresh lib pf [] hpn (by simp [GoMap.keys])]
      rfl
    have c2 : rangeCopy lib vf (lib.rangeOrder pf) = lib.rangeOrder pf ++ lib.rangeOrder vf := by
      apply rangeCopy_fresh lib vf _ hvn
      intro k hk hk'
      exact hpv (kp.mem_iff.mp hk') hk
    have c3 : rangeCopy lib mf (lib.rangeOrder pf ++ lib.rangeOrder vf) =
        lib.rangeOrder pf ++ lib.rangeOrder vf ++ lib.rangeOrder mf := by
      apply rangeCopy_fresh lib mf _ hmn
      intro k hk hk'
      simp only [GoMap.keys, List.map_append, List.mem_append] at hk'
      rcases hk' with h | h
      · exact hpvm (Or.inl (kp.mem_iff.mp h)) hk
      · exact hpvm (Or.inr (kv.mem_iff.mp h)) hk
    unfold Ticker.MarshalInfluxdbLineProto
    simp only [hp, hv, hm, Go.bind, c1, c2, c3]
    exact NewPoint_cases lib _ _ _ _

theorem marshal_point_fields {V T E : Type} (lib : Lib V T E) (t : Ticker V T) (C : String)
    (name : String) (tags : Tags) (fields : Fields V) (time : T)
    (h : t.MarshalInfluxdbLineProto lib C = Go.val (NewPoint lib name tags fields time))
    (pt : Point V T) (err : Option E)
    (hpt : t.MarshalInfluxdbLineProto lib C = Go.val (some pt, err)) :
    pt = ⟨parseName (MakeKey name tags), parseTags (MakeKey name tags), fields, time⟩ ∧
      err = none := by
  rw [h] at hpt
  injection hpt with hpt
  exact NewPoint_fields lib name tags fields time pt err hpt

/-- The encoder without a conversion currency. -/
theorem marshal_base {V T E : Type} (lib : Lib V T E) (t : Ticker V T) :
    ∃ fields : Fields V,
      fields.IsExactly [("price_usd", t.Price.USD), ("price_btc", t.Price.BTC),
        ("24h_volume_usd", t.Volume.USD), ("market_cap_usd", t.MarketCap.USD)] ∧
      t.MarshalInfluxdbLineProto lib "" =
        Go.val (NewPoint lib t.ID [("symbol", t.Symbol)] fields t.LastUpdated) := by
  have hnd : (([("price_usd", t.Price.USD), ("price_btc", t.Price.BTC)] ++
      [("24h_volume_usd", t.Volume.USD)] ++ [("market_cap_usd", t.MarketCap.USD)]).map
      Prod.fst).Nodup := by
    show ["price_usd", "price_btc", "24h_volume_usd", "market_cap_usd"].Nodup
    decide
  obtain ⟨fields, hperm, hm⟩ := marshal_of_fields lib t "" _ _ _
    (Price_Fields_empty lib t.Price) (Volume_Fields_empty lib t.Volume)
    (MarketCap_Fields_empty lib t.MarketCap) hnd
  exact ⟨fields, ⟨hnd, hperm⟩, hm⟩

/-- The encoder with a conversion currency that names a field of all three structs and whose
key differs from the base keys. -/
theorem marshal_conv {V T E : Type} (lib : Lib V T E) (t : Ticker V T) (C : String)
    (x y z : V) (hC : C ≠ "")
    (hx : FieldByName t.Price.structFields (lib.ToUpper C) = some x)
    (hy : FieldByName t.Volume.structFields (lib.ToUpper C) = some y)
    (hz : FieldByName t.MarketCap.structFields (lib.ToUpper C) = some z)
    (h1 : lib.ToLower C ≠ "usd") (h2 : lib.ToLower C ≠ "btc") :
    ∃ fields : Fields V,
      fields.IsExactly [("price_usd", t.Price.USD), ("price_btc", t.Price.BTC),
        ("price_" ++ lib.ToLower C, x), ("24h_volume_usd", t.Volume.USD),
        ("24h_volume_" ++ lib.ToLower C, y), ("market_cap_usd", t.MarketCap.USD),
        ("market_cap_" ++ lib.ToLower C, z)] ∧
      t.MarshalInfluxdbLineProto lib C =
        Go.val (NewPoint lib t.ID [("symbol", t.Symbol)] fields t.LastUpdated) := by
  have hnd := seven_keys_nodup (lib.ToLower C) h1 h2
  obtain ⟨fields, hperm, hm⟩ := marshal_of_fields lib t C _ _ _
    (Price_Fields_conv lib t.Price C x hC hx h1 h2)
    (Volume_Fields_conv lib t.Volume C y hC hy h1)
    (MarketCap_Fields_conv lib t.MarketCap C z hC hz h1) hnd
  exact ⟨fields, ⟨hnd, hperm⟩, hm⟩

theorem Price_Fields_panics {V T E : Type} (lib : Lib V T E) (p : Price V) (C : String) :
    (p.Fields lib C).panics = false ↔ C = "" ∨ lib.ToUpper C ∈ fieldNames p.structFields := by
  by_cases hC : C = ""
  · subst hC
    simp [Price_Fields_empty, Go.panics]
  · rw [← Float_panics_iff]
    unfold Price.Fields
    rw [if_pos hC]
    cases Value.Float (FieldByName p.structFields (lib.ToUpper C)) <;> simp [Go.bind, Go.panics, hC]

theorem Volume_Fields_panics {V T E : Type} (lib : Lib V T E) (v : Volume V) (C : String) :
    (v.Fields lib C).panics = false ↔ C = "" ∨ lib.ToUpper C ∈ currencyCodes := by
  rw [← Volume_fieldNames_eq v]
  by_cases hC : C = ""
  · subst hC
    simp [Volume_Fields_empty, Go.panics]
  · rw [← Float_panics_iff]
    unfold Volume.Fields
    rw [if_pos hC]
    cases Value.Float (FieldByName v.structFields (lib.ToUpper C)) <;> simp [Go.bind, Go.panics, hC]

theorem MarketCap_Fields_panics {V T E : Type} (lib : Lib V T E) (mc : MarketCap V)
    (C : String) :
    (mc.Fields lib C).panics = false ↔ C = "" ∨ lib.ToUpper C ∈ currencyCodes := by
  rw [← MarketCap_fieldNames_eq mc]
  by_cases hC : C = ""
  · subst hC
    simp [MarketCap_Fields_empty, Go.panics]
  · rw [← Float_panics_iff]
    unfold MarketCap.Fields
    rw [if_pos hC]
    cases Value.Float (FieldByName mc.structFields (lib.ToUpper C)) <;> simp [Go.bind, Go.panics, hC]

/-- The encoder panics exactly when one of the three field lookups does. -/
theorem marshal_panics {V T E : Type} (lib : Lib V T E) (t : Ticker V T) (C : String) :
    (t.MarshalInfluxdbLineProto lib C).panics = false ↔
      ((t.Price.Fields lib C).panics = false ∧ (t.Volume.Fields lib C).panics = false ∧
        (t.MarketCap.Fields lib C).panics = false) := by
  unfold Ticker.MarshalInfluxdbLineProto
  cases hp : t.Price.Fields lib C with
  | panic m => simp [Go.bind, Go.panics]
  | val pf =>
    cases hv : t.Volume.Fields lib C with
    | panic m => simp [Go.bind, Go.panics]
    | val vf =>
      cases hm : t.MarketCap.Fields lib C with
      | panic m => simp [Go.bind, Go.panics]
      | val mf =>
        simp only [Go.bind, Go.panics, and_self, iff_true]
        rw [NewPoint_cases]

theorem marshal_returned_point {V T E : Type} (lib : Lib V T E) (t : Ticker V T) (C : String)
    (pt : Point V T) (err : Option E)
    (h : t.MarshalInfluxdbLineProto lib C = Go.val (some pt, err)) :
    pt.name = parseName (MakeKey t.ID [("symbol", t.Symbol)]) ∧
      pt.tags = parseTags (MakeKey t.ID [("symbol", t.Symbol)]) ∧
      pt.time = t.LastUpdated ∧ err = none := by
  unfold Ticker.MarshalInfluxdbLineProto at h
  cases hp : t.Price.Fields lib C with
  | panic m => rw [hp] at h; cases h
  | val pf =>
    cases hv : t.Volume.Fields lib C with
    | panic m => rw [hp, hv] at h; cases h
    | val vf =>
      cases hm : t.MarketCap.Fields lib C with
      | panic m => rw [hp, hv, hm] at h; cases h
      | val mf =>
        rw [hp, hv, hm] at h
        simp only [Go.bind] at h
        rw [NewPoint_cases] at h
        injection h with h
        obtain ⟨hpt, herr⟩ := NewPoint_fields lib _ _ _ _ pt err h
        subst hpt
        exact ⟨rfl, rfl, rfl, herr⟩

theorem marshal_accepted {V T E : Type} (lib : Lib V T E) (t : Ticker V T) (C : String)
    (name : String) (tags : Tags) (fields : Fields V) (time : T)
    (h : t.MarshalInfluxdbLineProto lib C = Go.val (NewPoint lib name tags fields time))
    (hk : lib.pointKey name tags fields time = none) :
    t.MarshalInfluxdbLineProto lib C =
      Go.val (some ⟨parseName (MakeKey name tags), parseTags (MakeKey name tags), fields,
        time⟩, none) := by
  rw [h]
  unfold NewPoint
  rw [hk]

theorem findSome?_none_of_forall {α β : Type} (f : α → Option β) (l : List α)
    (h : ∀ x ∈ l, f x = none) : l.findSome? f = none := by
  induction l with
  | nil => rfl
  | cons x xs ih =>
    simp only [List.findSome?, h x (List.mem_cons_self _ _)]
    exact ih (fun y hy => h y (List.mem_cons_of_mem _ hy))

/-- The validation accepts a point that has a field, a time in range, no field that is
infinite, NaN or unnamed, and a series key within the size limit. -/
theorem pointKey_accepts (measurement : String) (tags : Tags) (fields : Fields Float64)
    (t : Time) (hne : fields ≠ []) (ht : t.inRange = true)
    (hf : ∀ kv ∈ fields, fieldError kv = none)
    (hs : ∀ kv ∈ fields, keySizeError (MakeKey measurement tags) kv = none) :
    pointKey measurement tags fields t = none := by
  have hlen : ¬ fields.length = 0 := fun h0 => hne (List.length_eq_zero.mp h0)
  unfold pointKey
  rw [if_neg hlen, if_neg (by simp [ht]), findSome?_none_of_forall fieldError fields hf]
  exact findSome?_none_of_forall _ fields hs

/-- The validation accepts every arrangement of a field list that passes the checks. -/
theorem pointKey_accepts_exactly (measurement : String) (tags : Tags)
    (entries : List (String × Float64)) (t : Time) (hne : entries ≠ [])
    (ht : t.inRange = true) (hf : ∀ kv ∈ entries, fieldError kv = none)
    (hs : ∀ kv ∈ entries, keySizeError (MakeKey measurement tags) kv = none)
    (fields : Fields Float64) (hex : fields.IsExactly entries) :
    pointKey measurement tags fields t = none := by
  apply pointKey_accepts measurement tags fields t
  · intro h0
    rw [h0] at hex
    exact hne (List.Perm.nil_eq hex.2).symm
  · exact ht
  · exact fun kv hkv => hf kv (hex.2.mem_iff.mp hkv)
  · exact fun kv hkv => hs kv (hex.2.mem_iff.mp hkv)

/-! ## The encoder: claims -/

/-- C1, as stated, fails in two ways. For the conversion currency "eth", which is not empty
and is neither USD nor BTC, the encoder produces no Point: `Price` declares no field `ETH`,
and the reflect call `.Float()` panics on the missing field. For the conversion currency
"aud" and a Tick whose USD price is NaN, the encoder produces no Point either:
`models.NewPoint` refuses the NaN field and the encoder returns `(nil, err)`. -/
theorem marshal_conversion_no_point :
    ("eth" ≠ "" ∧ (asciiLib Float Time Unit).ToUpper "eth" ≠ "USD" ∧
      (asciiLib Float Time Unit).ToUpper "eth" ≠ "BTC" ∧
      bitcoinTick.MarshalInfluxdbLineProto (asciiLib Float Time Unit) "eth" =
        Go.panic "reflect: call of reflect.Value.Float on zero Value") ∧
    ("aud" ≠ "" ∧ influxLib.ToUpper "aud" ≠ "USD" ∧ influxLib.ToUpper "aud" ≠ "BTC" ∧
      nanTick.MarshalInfluxdbLineProto influxLib "aud" =
        Go.val (none, some "NaN is an unsupported value for field price_usd")) :=
  ⟨⟨by decide, by decide, by decide, rfl⟩, ⟨by decide, by decide, by decide, rfl⟩⟩

/-- C1 (amended): for every Tick `t` and every non-empty conversion currency `C` whose
upper-casing names a field of each of `t.Price`, `t.Volume` and `t.MarketCap`, with values
`x`, `y` and `z` (the fields named by one of the 32 codes declared in all three structs),
whose lower-casing `c` is neither "usd" nor "btc", and for which `models.NewPoint` accepts
the seven-entry field set, the encoder produces a Point, without error, whose field set is
exactly the seven entries price_usd = t.Price.USD, price_btc = t.Price.BTC, price_c = x,
24h_volume_usd = t.Volume.USD, 24h_volume_c = y, market_cap_usd = t.MarketCap.USD,
market_cap_c = z, and no other key. -/
theorem marshal_conversion_fields {V T E : Type} (lib : Lib V T E) (t : Ticker V T)
    (C : String) (x y z : V) (hC : C ≠ "")
    (hx : FieldByName t.Price.structFields (lib.ToUpper C) = some x)
    (hy : FieldByName t.Volume.structFields (lib.ToUpper C) = some y)
    (hz : FieldByName t.MarketCap.structFields (lib.ToUpper C) = some z)
    (h1 : lib.ToLower C ≠ "usd") (h2 : lib.ToLower C ≠ "btc")
    (hk : ∀ fields : Fields V,
      fields.IsExactly [("price_usd", t.Price.USD), ("price_btc", t.Price.BTC),
        ("price_" ++ lib.ToLower C, x), ("24h_volume_usd", t.Volume.USD),
        ("24h_volume_" ++ lib.ToLower C, y), ("market_cap_usd", t.MarketCap.USD),
        ("market_cap_" ++ lib.ToLower C, z)] →
      lib.pointKey t.ID [("symbol", t.Symbol)] fields t.LastUpdated = none) :
    ∃ pt : Point V T,
      t.MarshalInfluxdbLineProto lib C = Go.val (some pt, none) ∧
      pt.fields.IsExactly [("price_usd", t.Price.USD), ("price_btc", t.Price.BTC),
        ("price_" ++ lib.ToLower C, x), ("24h_volume_usd", t.Volume.USD),
        ("24h_volume_" ++ lib.ToLower C, y), ("market_cap_usd", t.MarketCap.USD),
        ("market_cap_" ++ lib.ToLower C, z)] := by
  obtain ⟨fields, hex, hm⟩ := marshal_conv lib t C x y z hC hx hy hz h1 h2
  exact ⟨_, marshal_accepted lib t C _ _ fields _ hm (hk fields hex), hex⟩

/-- C2, as stated, fails: for a Tick whose USD price is NaN, the encoder with the empty
conversion currency produces no Point; `models.NewPoint` refuses the NaN field and the
encoder returns `(nil, err)`. -/
theorem marshal_nan_no_point :
    nanTick.MarshalInfluxdbLineProto influxLib "" =
      Go.val (none, some "NaN is an unsupported value for field price_usd") := rfl

/-- C2 (amended): for every Tick `t` for which `models.NewPoint` accepts the four-entry
field set, the encoder with the empty conversion currency produces a Point, without error,
whose field set is exactly the four entries price_usd = t.Price.USD,
price_btc = t.Price.BTC, 24h_volume_usd = t.Volume.USD, market_cap_usd = t.MarketCap.USD,
with no conversion-currency field. -/
theorem marshal_empty_currency_fields {V T E : Type} (lib : Lib V T E) (t : Ticker V T)
    (hk : ∀ fields : Fields V,
      fields.IsExactly [("price_usd", t.Price.USD), ("price_btc", t.Price.BTC),
        ("24h_volume_usd", t.Volume.USD), ("market_cap_usd", t.MarketCap.USD)] →
      lib.pointKey t.ID [("symbol", t.Symbol)] fields t.LastUpdated = none) :
    ∃ pt : Point V T,
      t.MarshalInfluxdbLineProto lib "" = Go.val (some pt, none) ∧
      pt.fields.IsExactly [("price_usd", t.Price.USD), ("price_btc", t.Price.BTC),
        ("24h_volume_usd", t.Volume.USD), ("market_cap_usd", t.MarketCap.USD)] := by
  obtain ⟨fields, hex, hm⟩ := marshal_base lib t
  exact ⟨_, marshal_accepted lib t "" _ _ fields _ hm (hk fields hex), hex⟩

/-- C4, as stated, fails. For a Tick with an empty Symbol the encoder returns a Point
without error that has no tag at all: the series key leaves out a tag whose value is empty.
For a Tick whose ID ends in a backslash the Point's name is not the ID: the backslash
escapes the comma that ends the name in the series key, the name read back is
"bitcoin,symbol=BTC", and no tag is read back. For a Tick with an empty ID no tag is read
back either. -/
theorem marshal_name_or_tags_lost :
    (∃ pt : Point Float Time,
      noSymbolTick.MarshalInfluxdbLineProto (asciiLib Float Time Unit) "" =
        Go.val (some pt, none) ∧
      pt.tags = [] ∧ pt.tags ≠ [("symbol", noSymbolTick.Symbol)]) ∧
    (∃ pt : Point Float Time,
      backslashTick.MarshalInfluxdbLineProto (asciiLib Float Time Unit) "" =
        Go.val (some pt, none) ∧
      pt.name = "bitcoin,symbol=BTC" ∧ pt.name ≠ backslashTick.ID ∧ pt.tags = []) ∧
    (∃ pt : Point Float Time,
      noIDTick.MarshalInfluxdbLineProto (asciiLib Float Time Unit) "" =
        Go.val (some pt, none) ∧
      pt.tags = [] ∧ pt.tags ≠ [("symbol", noIDTick.Symbol)]) := by
  refine ⟨⟨_, rfl, ?_, ?_⟩, ⟨_, rfl, ?_, ?_, ?_⟩, ⟨_, rfl, ?_, ?_⟩⟩
  · decide
  · decide
  · decide
  · decide
  · decide
  · decide
  · decide

/-- C4 (amended): for every Tick `t` and every conversion currency for which the encoder
returns a Point without error, the Point's timestamp is `t.LastUpdated`; its name is `t.ID`
when `t.ID` holds no backslash; and its tag set is exactly the single tag
symbol = `t.Symbol` when `t.ID` is not empty and holds no backslash and `t.Symbol` is not
empty. -/
theorem marshal_name_tags_time {V T E : Type} (lib : Lib V T E) (t : Ticker V T)
    (C : String) (pt : Point V T)
    (h : t.MarshalInfluxdbLineProto lib C = Go.val (some pt, none)) :
    pt.time = t.LastUpdated ∧
    (backslash ∉ t.ID.data → pt.name = t.ID) ∧
    (backslash ∉ t.ID.data → t.ID ≠ "" → t.Symbol ≠ "" →
      pt.tags = [("symbol", t.Symbol)]) := by
  obtain ⟨hn, ht, htime, _⟩ := marshal_returned_point lib t C pt none h
  refine ⟨htime, ?_, ?_⟩
  · intro hid
    rw [hn, parseName_MakeKey t.ID t.Symbol hid]
  · intro hid hidne hsymne
    rw [ht, parseTags_MakeKey t.ID t.Symbol hid hidne hsymne]

/-- C9: for every Tick and every conversion currency `C`, the by-name lookups of
`Price.Fields`, `Volume.Fields` and `MarketCap.Fields` all succeed, and so the encoder reaches
point construction, if and only if `C` is empty or the upper-cased `C` is one of the 32
currency codes declared in all three structs; for "btc" (upper-cased "BTC") the lookup
succeeds in `Price` and fails in `Volume` and `MarketCap`, so encoding fails. -/
theorem currency_lookups_succeed_iff {V T E : Type} (lib : Lib V T E) (t : Ticker V T)
    (C : String) :
    (((t.Price.Fields lib C).panics = false ∧ (t.Volume.Fields lib C).panics = false ∧
        (t.MarketCap.Fields lib C).panics = false) ↔
      (C = "" ∨ lib.ToUpper C ∈ currencyCodes)) ∧
    ((t.MarshalInfluxdbLineProto lib C).panics = false ↔
      (C = "" ∨ lib.ToUpper C ∈ currencyCodes)) ∧
    (currencyCodes.length = 32 ∧ currencyCodes.Nodup ∧
      ∀ n, n ∈ currencyCodes ↔
        (n ∈ fieldNames t.Price.structFields ∧ n ∈ fieldNames t.Volume.structFields ∧
          n ∈ fieldNames t.MarketCap.structFields)) ∧
    (lib.ToUpper "btc" = "BTC" →
      (t.Price.Fields lib "btc").panics = false ∧ (t.Volume.Fields lib "btc").panics = true ∧
        (t.MarketCap.Fields lib "btc").panics = true ∧
        (t.MarshalInfluxdbLineProto lib "btc").panics = true) := by
  have hall : ((t.Price.Fields lib C).panics = false ∧ (t.Volume.Fields lib C).panics = false ∧
        (t.MarketCap.Fields lib C).panics = false) ↔
      (C = "" ∨ lib.ToUpper C ∈ currencyCodes) := by
    rw [Price_Fields_panics, Volume_Fields_panics, MarketCap_Fields_panics,
      Price.mem_fieldNames]
    tauto
  refine ⟨hall, ?_, ⟨rfl, by decide, ?_⟩, ?_⟩
  · rw [marshal_panics]
    exact hall
  · intro n
    rw [Price.mem_fieldNames, Volume_fieldNames_eq, MarketCap_fieldNames_eq]
    tauto
  · intro hbtc
    have hnot : ("BTC" : String) ∉ currencyCodes := by decide
    have hne : ("btc" : String) ≠ "" := by decide
    have hp : (t.Price.Fields lib "btc").panics = false := by
      rw [Price_Fields_panics, Price.mem_fieldNames, hbtc]
      exact Or.inr (Or.inl rfl)
    have hv : (t.Volume.Fields lib "btc").panics = true := by
      have h := Volume_Fields_panics lib t.Volume "btc"
      rw [hbtc] at h
      cases hq : (t.Volume.Fields lib "btc").panics
      · rcases h.mp hq with h0 | h0
        · exact absurd h0 hne
        · exact absurd h0 hnot
      · rfl
    have hm : (t.MarketCap.Fields lib "btc").panics = true := by
      have h := MarketCap_Fields_panics lib t.MarketCap "btc"
      rw [hbtc] at h
      cases hq : (t.MarketCap.Fields lib "btc").panics
      · rcases h.mp hq with h0 | h0
        · exact absurd h0 hne
        · exact absurd h0 hnot
      · rfl
    refine ⟨hp, hv, hm, ?_⟩
    cases hq : (t.MarshalInfluxdbLineProto lib "btc").panics
    · have h := (marshal_panics lib t "btc").mp hq
      rw [hv] at h
      exact absurd h.2.1 (by decide)
    · rfl

/-- C10: for every Tick `t` and every conversion currency `C` that is "usd" in some letter
case (its upper-casing is "USD", its lower-casing "usd"), the conversion keys coincide with
the base keys: the encoder returns for `C` what it returns for the empty conversion currency,
with a field set of exactly the four entries price_usd, price_btc, 24h_volume_usd and
market_cap_usd holding `t`'s USD and BTC values. -/
theorem marshal_usd_same_as_empty {V T E : Type} (lib : Lib V T E) (t : Ticker V T)
    (C : String) (hU : lib.ToUpper C = "USD") (hL : lib.ToLower C = "usd") :
    t.MarshalInfluxdbLineProto lib C = t.MarshalInfluxdbLineProto lib "" ∧
    (∃ fields : Fields V,
      fields.IsExactly [("price_usd", t.Price.USD), ("price_btc", t.Price.BTC),
        ("24h_volume_usd", t.Volume.USD), ("market_cap_usd", t.MarketCap.USD)] ∧
      t.MarshalInfluxdbLineProto lib C =
        Go.val (NewPoint lib t.ID [("symbol", t.Symbol)] fields t.LastUpdated)) ∧
    (∀ (pt : Point V T) (err : Option E),
      t.MarshalInfluxdbLineProto lib C = Go.val (some pt, err) →
      pt.fields.IsExactly [("price_usd", t.Price.USD), ("price_btc", t.Price.BTC),
        ("24h_volume_usd", t.Volume.USD), ("market_cap_usd", t.MarketCap.USD)]) := by
  have heq : t.MarshalInfluxdbLineProto lib C = t.MarshalInfluxdbLineProto lib "" := by
    unfold Ticker.MarshalInfluxdbLineProto
    rw [Price_Fields_usd lib t.Price C hU hL, Volume_Fields_usd lib t.Volume C hU hL,
      MarketCap_Fields_usd lib t.MarketCap C hU hL]
  obtain ⟨fields, hex, hm⟩ := marshal_base lib t
  refine ⟨heq, ⟨fields, hex, heq.trans hm⟩, ?_⟩
  intro pt err hpt
  obtain ⟨hp, _⟩ := marshal_point_fields lib t C _ _ _ _ (heq.trans hm) pt err hpt
  rw [hp]
  exact hex

/-- A witness of C1 (amended): the Tick of the scenario with conversion currency "Eur",
under the validation of `models.NewPoint`. -/
theorem marshal_conversion_fields_witness :
    ("Eur" ≠ "" ∧ influxLib.ToLower "Eur" ≠ "usd" ∧ influxLib.ToLower "Eur" ≠ "btc" ∧
      FieldByName quoteTick.Price.structFields (influxLib.ToUpper "Eur") =
        some (Float64.finite 0)) ∧
    ∃ pt : Point Float64 Time,
      quoteTick.MarshalInfluxdbLineProto influxLib "Eur" = Go.val (some pt, none) ∧
      pt.fields.IsExactly [("price_usd", quoteTick.Price.USD),
        ("price_btc", quoteTick.Price.BTC),
        ("price_" ++ influxLib.ToLower "Eur", Float64.finite 0),
        ("24h_volume_usd", quoteTick.Volume.USD),
        ("24h_volume_" ++ influxLib.ToLower "Eur", Float64.finite 0),
        ("market_cap_usd", quoteTick.MarketCap.USD),
        ("market_cap_" ++ influxLib.ToLower "Eur", Float64.finite 0)] :=
  ⟨⟨by decide, by decide, by decide, rfl⟩,
    marshal_conversion_fields influxLib quoteTick "Eur" (Float64.finite 0) (Float64.finite 0)
      (Float64.finite 0) (by decide) rfl rfl rfl (by decide) (by decide)
      (pointKey_accepts_exactly _ _ _ _ (by simp) (by decide) (by decide) (by decide))⟩

/-- A witness of C2 (amended): the Tick of the scenario, under the validation of
`models.NewPoint`. -/
theorem marshal_empty_currency_fields_witness :
    ∃ pt : Point Float64 Time,
      quoteTick.MarshalInfluxdbLineProto influxLib "" = Go.val (some pt, none) ∧
      pt.fields.IsExactly [("price_usd", quoteTick.Price.USD),
        ("price_btc", quoteTick.Price.BTC), ("24h_volume_usd", quoteTick.Volume.USD),
        ("market_cap_usd", quoteTick.MarketCap.USD)] :=
  marshal_empty_currency_fields influxLib quoteTick
    (pointKey_accepts_exactly _ _ _ _ (by simp) (by decide) (by decide) (by decide))

/-- A witness of C4 (amended): the Tick of the scenario, encoded without a conversion
currency. -/
theorem marshal_name_tags_time_witness :
    bitcoinTick.MarshalInfluxdbLineProto (asciiLib Float Time Unit) "" =
      Go.val (some ⟨"bitcoin", [("symbol", "BTC")],
        [("price_usd", 50000), ("price_btc", 1), ("24h_volume_usd", 0), ("market_cap_usd", 0)],
        Time.unix 1609459200⟩, none) ∧
    (backslash ∉ bitcoinTick.ID.data ∧ bitcoinTick.ID ≠ "" ∧ bitcoinTick.Symbol ≠ "") ∧
    (Time.unix 1609459200 = bitcoinTick.LastUpdated ∧
      ("bitcoin" : String) = bitcoinTick.ID ∧
      ([("symbol", "BTC")] : Tags) = [("symbol", bitcoinTick.Symbol)]) :=
  ⟨rfl, ⟨by decide, by decide, by decide⟩,
    (marshal_name_tags_time (asciiLib Float Time Unit) bitcoinTick ""
      ⟨"bitcoin", [("symbol", "BTC")],
        [("price_usd", 50000), ("price_btc", 1), ("24h_volume_usd", 0), ("market_cap_usd", 0)],
        Time.unix 1609459200⟩ rfl).1,
    (marshal_name_tags_time (asciiLib Float Time Unit) bitcoinTick ""
      ⟨"bitcoin", [("symbol", "BTC")],
        [("price_usd", 50000), ("price_btc", 1), ("24h_volume_usd", 0), ("market_cap_usd", 0)],
        Time.unix 1609459200⟩ rfl).2.1 (by decide),
    (marshal_name_tags_time (asciiLib Float Time Unit) bitcoinTick ""
      ⟨"bitcoin", [("symbol", "BTC")],
        [("price_usd", 50000), ("price_btc", 1), ("24h_volume_usd", 0), ("market_cap_usd", 0)],
        Time.unix 1609459200⟩ rfl).2.2 (by decide) (by decide) (by decide)⟩

/-- A witness of C9: with ASCII upper-casing, "btc" is found in `Price` and missing in
`Volume` and `MarketCap`, and "aud" is found in all three. -/
theorem currency_lookups_succeed_iff_witness :
    (asciiLib Float Time Unit).ToUpper "btc" = "BTC" ∧
    ((bitcoinTick.Price.Fields (asciiLib Float Time Unit) "btc").panics = false ∧
      (bitcoinTick.Volume.Fields (asciiLib Float Time Unit) "btc").panics = true ∧
      (bitcoinTick.MarketCap.Fields (asciiLib Float Time Unit) "btc").panics = true ∧
      (bitcoinTick.MarshalInfluxdbLineProto (asciiLib Float Time Unit) "btc").panics = true) ∧
    (bitcoinTick.MarshalInfluxdbLineProto (asciiLib Float Time Unit) "aud").panics = false :=
  ⟨by decide,
    (currency_lookups_succeed_iff (asciiLib Float Time Unit) bitcoinTick "btc").2.2.2
      (by decide),
    (currency_lookups_succeed_iff (asciiLib Float Time Unit) bitcoinTick "aud").2.1.mpr
      (Or.inr (by decide))⟩

/-- A witness of C10: the conversion currency "UsD". -/
theorem marshal_usd_same_as_empty_witness :
    ((asciiLib Float Time Unit).ToUpper "UsD" = "USD" ∧
      (asciiLib Float Time Unit).ToLower "UsD" = "usd") ∧
    bitcoinTick.MarshalInfluxdbLineProto (asciiLib Float Time Unit) "UsD" =
      bitcoinTick.MarshalInfluxdbLineProto (asciiLib Float Time Unit) "" :=
  ⟨⟨by decide, by decide⟩,
    (marshal_usd_same_as_empty (asciiLib Float Time Unit) bitcoinTick "UsD"
      (by decide) (by decide)).1⟩

/-- Every spelling of "usd" in upper and lower case letters upper-cases to "USD" and
lower-cases to "usd". -/
theorem usd_letter_cases :
    ∀ C ∈ ["usd", "usD", "uSd", "uSD", "Usd", "UsD", "USd", "USD"],
      (asciiLib Float Time Unit).ToUpper C = "USD" ∧
        (asciiLib Float Time Unit).ToLower C = "usd" := by
  decide

/-- What the encoder returns in the scenario, in the arrangement the concrete library
gives the field set. -/
theorem scenario_value :
    bitcoinTick.MarshalInfluxdbLineProto (asciiLib Float Time Unit) "aud" =
      Go.val (some ⟨"bitcoin", [("symbol", "BTC")],
        [("price_usd", 50000), ("price_btc", 1), ("price_aud", 70000), ("24h_volume_usd", 0),
          ("24h_volume_aud", 0), ("market_cap_usd", 0), ("market_cap_aud", 0)],
        Time.unix 1609459200⟩, none) := rfl

/-- C3, as stated, fails: the Point encoded in the scenario does not have the field set
of the three entries price_usd, price_btc, price_aud. Its field set has seven entries; the volume and market
capitalisation entries, all zero here, are part of it. -/
theorem scenario_not_three_fields :
    ¬ ∃ pt : Point Float Time,
      bitcoinTick.MarshalInfluxdbLineProto (asciiLib Float Time Unit) "aud" =
        Go.val (some pt, none) ∧
      pt.name = "bitcoin" ∧ pt.tags = [("symbol", "BTC")] ∧
      pt.fields.IsExactly [("price_usd", 50000), ("price_btc", 1), ("price_aud", 70000)] ∧
      pt.time = Time.unix 1609459200 := by
  rintro ⟨pt, h, _, _, hex, _⟩
  rw [scenario_value] at h
  injection h with h
  injection h with h _
  injection h with h
  subst h
  have hlen := hex.2.length_eq
  simp at hlen

/-- C3 (amended): encoding the Tick of the scenario with conversion currency "aud"
(upper-cased "AUD", lower-cased "aud"; the point constructor accepting) yields a Point with
name "bitcoin", tag set symbol = "BTC", timestamp 2021-01-01T00:00:00Z, and field set exactly
price_usd = 50000, price_btc = 1, price_aud = 70000, 24h_volume_usd = 0, 24h_volume_aud = 0,
market_cap_usd = 0, market_cap_aud = 0. -/
theorem scenario_bitcoin_aud {E : Type} (lib : Lib Float Time E)
    (hU : lib.ToUpper "aud" = "AUD") (hL : lib.ToLower "aud" = "aud")
    (hk : ∀ fields, lib.pointKey "bitcoin" [("symbol", "BTC")] fields (Time.unix 1609459200)
      = none) :
    ∃ pt : Point Float Time,
      bitcoinTick.MarshalInfluxdbLineProto lib "aud" = Go.val (some pt, none) ∧
      pt.name = "bitcoin" ∧ pt.tags = [("symbol", "BTC")] ∧
      pt.fields.IsExactly [("price_usd", 50000), ("price_btc", 1), ("price_aud", 70000),
        ("24h_volume_usd", 0), ("24h_volume_aud", 0), ("market_cap_usd", 0),
        ("market_cap_aud", 0)] ∧
      pt.time = Time.unix 1609459200 := by
  have hx : FieldByName bitcoinTick.Price.structFields (lib.ToUpper "aud") = some 70000 := by
    rw [hU]; rfl
  have hy : FieldByName bitcoinTick.Volume.structFields (lib.ToUpper "aud") = some 0 := by
    rw [hU]; rfl
  have hz : FieldByName bitcoinTick.MarketCap.structFields (lib.ToUpper "aud") = some 0 := by
    rw [hU]; rfl
  obtain ⟨fields, hex, hm⟩ := marshal_conv lib bitcoinTick "aud" 70000 0 0 (by decide) hx hy hz
    (by rw [hL]; decide) (by rw [hL]; decide)
  rw [hL] at hex
  refine ⟨⟨"bitcoin", [("symbol", "BTC")], fields, Time.unix 1609459200⟩, ?_, rfl, rfl, hex, rfl⟩
  rw [hm]
  show Go.val (NewPoint lib "bitcoin" [("symbol", "BTC")] fields (Time.unix 1609459200)) = _
  unfold NewPoint
  rw [hk fields]
  have hname : parseName (MakeKey "bitcoin" [("symbol", "BTC")]) = "bitcoin" := by decide
  have htags : parseTags (MakeKey "bitcoin" [("symbol", "BTC")]) = [("symbol", "BTC")] := by
    decide
  simp only [hname, htags]

/-- A witness of C3 (amended): ASCII case mapping and an accepting point constructor. -/
theorem scenario_bitcoin_aud_witness :
    ((asciiLib Float Time Unit).ToUpper "aud" = "AUD" ∧
      (asciiLib Float Time Unit).ToLower "aud" = "aud") ∧
    ∃ pt : Point Float Time,
      bitcoinTick.MarshalInfluxdbLineProto (asciiLib Float Time Unit) "aud" =
        Go.val (some pt, none) ∧
      pt.name = "bitcoin" ∧ pt.tags = [("symbol", "BTC")] ∧
      pt.fields.IsExactly [("price_usd", 50000), ("price_btc", 1), ("price_aud", 70000),
        ("24h_volume_usd", 0), ("24h_volume_aud", 0), ("market_cap_usd", 0),
        ("market_cap_aud", 0)] ∧
      pt.time = Time.unix 1609459200 :=
  ⟨⟨by decide, by decide⟩,
    scenario_bitcoin_aud (asciiLib Float Time Unit) (by decide) (by decide) (fun _ => rfl)⟩

/-! ## The fetcher: claims -/

/-- C5 fails on the code for an empty result: with the symbol "bitcoin", when the response
decodes to an empty array, `GetNewTick` requests the quote and then panics on `ticks[0]`
(index out of range); it does not return an error. -/
theorem GetNewTick_empty_array_panics :
    GetNewTick emptyArrayNet "bitcoin" "aud" =
      ⟨["https://api.coinmarketcap.com/v1/ticker/bitcoin/?convert=aud"],
        Go.panic "runtime error: index out of range [0] with length 0"⟩ := rfl

/-- C6: for every conversion currency, `GetNewTick` with the empty symbol returns the zero
Ticker and the error "crypto currency not specified" without issuing any request; with a
non-empty symbol it issues exactly one request and never returns an error made by
`fmt.Errorf` (the only errors it returns are those of the library calls). -/
theorem GetNewTick_symbol_check {V T E R B : Type} [Zero V] [Zero T] (net : Net V T E R B)
    (exchange : String) :
    GetNewTick net "" exchange =
      ⟨[], Go.val (Ticker.zero V T, some (Error.errorf "crypto currency not specified"))⟩ ∧
    (∀ crypto : String, crypto ≠ "" →
      (GetNewTick net crypto exchange).requests.length = 1 ∧
      ∀ (t : Ticker V T) (msg : String),
        (GetNewTick net crypto exchange).outcome ≠ Go.val (t, some (Error.errorf msg))) := by
  refine ⟨rfl, ?_⟩
  intro crypto hc
  unfold GetNewTick
  rw [if_neg hc]
  dsimp only
  generalize (if exchange = "" then "https://api.coinmarketcap.com/v1/ticker/" ++ crypto ++ "/"
      else "https://api.coinmarketcap.com/v1/ticker/" ++ crypto ++ "/?convert=" ++ exchange)
    = url
  cases net.Get url with
  | error e =>
    dsimp only
    exact ⟨rfl, fun t msg h => by cases h⟩
  | ok resp =>
    dsimp only
    cases net.ReadAll resp with
    | error e =>
      dsimp only
      exact ⟨rfl, fun t msg h => by cases h⟩
    | ok body =>
      dsimp only
      cases net.Unmarshal body with
      | error e =>
        dsimp only
        exact ⟨rfl, fun t msg h => by cases h⟩
      | ok ticks =>
        dsimp only
        cases ticks with
        | nil =>
          dsimp only
          exact ⟨rfl, fun t msg h => by cases h⟩
        | cons t0 rest =>
          dsimp only
          exact ⟨rfl, fun t msg h => by cases h⟩

/-- A witness of C6: the symbol "bitcoin" against a network that answers with one record. -/
theorem GetNewTick_symbol_check_witness :
    GetNewTick bitcoinNet "" "aud" =
      ⟨[], Go.val (Ticker.zero Float Time,
        some (Error.errorf "crypto currency not specified"))⟩ ∧
    ("bitcoin" ≠ "" ∧ (GetNewTick bitcoinNet "bitcoin" "aud").requests.length = 1 ∧
      (GetNewTick bitcoinNet "bitcoin" "aud").outcome = Go.val (bitcoinTick, none)) :=
  ⟨(GetNewTick_symbol_check bitcoinNet "aud").1, by decide,
    ((GetNewTick_symbol_check bitcoinNet "aud").2 "bitcoin" (by decide)).1, rfl⟩

/-! ## The collection loop: lemmas -/

theorem Collector.pending_emit {Tk : Type} (ts : List Tk) :
    (Collector.emit ts).pending = ts := by
  cases ts <;> rfl

theorem step_conserves {Tk P E : Type} (encode : Tk → Option P) (F : List Tk)
    (s s' : Sys Tk P) (e : Event Tk E) (hinv : s.Conserves encode F)
    (h : step encode s e = some s') : s'.Conserves encode (F ++ e.fetched) := by
  obtain ⟨ws, hw, hF⟩ := hinv
  obtain ⟨quit, coll, pers, done, running, writes⟩ := s
  unfold step at h
  split at h
  · cases h
  · cases e with
    | signal =>
      simp only [Option.some.injEq] at h
      subst h
      exact ⟨ws, hw, by simpa [Event.fetched] using hF⟩
    | fetch r =>
      cases coll with
      | idle =>
        cases r with
        | error err =>
          simp only [Option.some.injEq] at h
          subst h
          exact ⟨ws, hw, by simpa [Event.fetched] using hF⟩
        | ok ts =>
          simp only [Option.some.injEq] at h
          subst h
          refine ⟨ws, hw, ?_⟩
          simp only [Event.fetched, Collector.pending_emit]
          simp only [Collector.pending, List.append_nil] at hF
          rw [hF]
      | sending l => cases h
      | stopped => cases h
    | collectorQuit =>
      cases coll with
      | idle =>
        simp only at h
        split at h
        · simp only [Option.some.injEq] at h
          subst h
          exact ⟨ws, hw, by simpa [Event.fetched] using hF⟩
        · cases h
      | sending l => cases h
      | stopped => cases h
    | handoff =>
      simp only at h
      split at h
      · simp only [Option.some.injEq] at h
        subst h
        refine ⟨ws, hw, ?_⟩
        simp only [Event.fetched, Collector.pending_emit, Persister.inHand, List.append_nil]
        simp only [Collector.pending, Persister.inHand, List.append_nil] at hF
        rw [hF]
        simp
      · cases h
    | batchFailed =>
      cases pers with
      | holding t =>
        simp only [Option.some.injEq] at h
        subst h
        exact ⟨ws, hw, by simpa [Event.fetched] using hF⟩
      | select => cases h
      | logging => cases h
      | signalling => cases h
    | write r =>
      cases pers with
      | holding t =>
        simp only at h
        cases henc : encode t with
        | none =>
          rw [henc] at h
          simp only [Option.some.injEq] at h
          subst h
          exact ⟨ws, hw, by simpa [Event.fetched] using hF⟩
        | some pt =>
          rw [henc] at h
          have hw' : (writes ++ [[pt]]).map (List.map some) =
              (ws ++ [t]).map (fun t => [encode t]) := by
            simp only [List.map_append, List.map_cons, List.map_nil, henc]
            simp only at hw
            rw [hw]
          have hF' : F ++ (Event.write r : Event Tk E).fetched = (ws ++ [t]) ++ [] ++ coll.pending := by
            simp only [Persister.inHand] at hF
            simp [Event.fetched, hF]
          cases r with
          | some err =>
            simp only [Option.some.injEq] at h
            subst h
            exact ⟨ws ++ [t], hw', hF'⟩
          | none =>
            simp only [Option.some.injEq] at h
            subst h
            exact ⟨ws ++ [t], hw', hF'⟩
      | select => cases h
      | logging => cases h
      | signalling => cases h
    | logDelivered =>
      cases pers with
      | logging =>
        simp only [Option.some.injEq] at h
        subst h
        exact ⟨ws, hw, by simpa [Event.fetched] using hF⟩
      | select => cases h
      | holding t => cases h
      | signalling => cases h
    | persisterQuit =>
      cases pers with
      | select =>
        simp only at h
        split at h
        · simp only [Option.some.injEq] at h
          subst h
          exact ⟨ws, hw, by simpa [Event.fetched] using hF⟩
        · cases h
      | logging => cases h
      | holding t => cases h
      | signalling => cases h
    | doneSent =>
      cases pers with
      | signalling =>
        simp only at h
        split at h
        · simp only [Option.some.injEq] at h
          subst h
          exact ⟨ws, hw, by simpa [Event.fetched] using hF⟩
        · cases h
      | logging => cases h
      | holding t => cases h
      | select => cases h
    | exit =>
      simp only at h
      split at h
      · simp only [Option.some.injEq] at h
        subst h
        exact ⟨ws, hw, by simpa [Event.fetched] using hF⟩
      · cases h

theorem run_conserves {Tk P E : Type} (encode : Tk → Option P) (evs : List (Event Tk E)) :
    ∀ (F : List Tk) (s s' : Sys Tk P), s.Conserves encode F → run encode s evs = some s' →
      s'.Conserves encode (F ++ fetchedBy evs) := by
  induction evs with
  | nil =>
    intro F s s' hinv h
    simp only [run, Option.some.injEq] at h
    subst h
    simpa [fetchedBy] using hinv
  | cons e rest ih =>
    intro F s s' hinv h
    simp only [run] at h
    cases hs : step encode s e with
    | none => rw [hs] at h; cases h
    | some mid =>
      rw [hs] at h
      have hmid := step_conserves encode F s mid e hinv hs
      have hend := ih (F ++ e.fetched) mid s' hmid h
      simpa [fetchedBy, List.append_assoc] using hend

/-- One step from a state whose collector has returned and whose persister holds no tick:
nothing is written, and the state stays of that kind. -/
theorem step_quiet {Tk P E : Type} (encode : Tk → Option P) (s s' : Sys Tk P)
    (e : Event Tk E) (hc : s.collector = Collector.stopped)
    (hp : s.persister.isHolding = false) (h : step encode s e = some s') :
    s'.collector = Collector.stopped ∧ s'.persister.isHolding = false ∧
      s'.writes = s.writes := by
  obtain ⟨quit, coll, pers, done, running, writes⟩ := s
  simp only at hc
  subst hc
  unfold step at h
  split at h
  · cases h
  · cases e with
    | signal =>
      simp only [Option.some.injEq] at h
      subst h
      exact ⟨rfl, hp, rfl⟩
    | fetch r => cases h
    | collectorQuit => cases h
    | handoff =>
      simp only at h
      cases h
    | batchFailed =>
      cases pers with
      | holding t => cases hp
      | select => cases h
      | logging => cases h
      | signalling => cases h
    | write r =>
      cases pers with
      | holding t => cases hp
      | select => cases h
      | logging => cases h
      | signalling => cases h
    | logDelivered =>
      cases pers with
      | logging =>
        simp only [Option.some.injEq] at h
        subst h
        exact ⟨rfl, rfl, rfl⟩
      | select => cases h
      | holding t => cases h
      | signalling => cases h
    | persisterQuit =>
      cases pers with
      | select =>
        simp only at h
        split at h
        · simp only [Option.some.injEq] at h
          subst h
          exact ⟨rfl, rfl, rfl⟩
        · cases h
      | logging => cases h
      | holding t => cases h
      | signalling => cases h
    | doneSent =>
      cases pers with
      | signalling =>
        simp only at h
        split at h
        · simp only [Option.some.injEq] at h
          subst h
          exact ⟨rfl, rfl, rfl⟩
        · cases h
      | logging => cases h
      | holding t => cases h
      | select => cases h
    | exit =>
      simp only at h
      split at h
      · simp only [Option.some.injEq] at h
        subst h
        exact ⟨rfl, hp, rfl⟩
      · cases h

theorem run_quiet {Tk P E : Type} (encode : Tk → Option P) (evs : List (Event Tk E)) :
    ∀ (s s' : Sys Tk P), s.collector = Collector.stopped → s.persister.isHolding = false →
      run encode s evs = some s' → s'.writes = s.writes := by
  induction evs with
  | nil =>
    intro s s' _ _ h
    simp only [run, Option.some.injEq] at h
    rw [h]
  | cons e rest ih =>
    intro s s' hc hp h
    simp only [run] at h
    cases hs : step encode s e with
    | none => rw [hs] at h; cases h
    | some mid =>
      rw [hs] at h
      obtain ⟨hc', hp', hw⟩ := step_quiet encode s mid e hc hp hs
      rw [ih mid s' hc' hp' h, hw]

/-- One step from a state whose collector has returned and whose persister holds the tick
`t`: the persister still holds `t` and nothing is written, or the process ends, or `t` is
written and the persister holds no tick any more. -/
theorem step_in_flight {Tk P E : Type} (encode : Tk → Option P) (s s' : Sys Tk P)
    (e : Event Tk E) (t : Tk) (hc : s.collector = Collector.stopped)
    (hp : s.persister = Persister.holding t) (h : step encode s e = some s') :
    s'.collector = Collector.stopped ∧
      ((s'.persister = Persister.holding t ∧ s'.writes = s.writes) ∨
        (s'.running = false ∧ s'.writes = s.writes) ∨
        (s'.persister.isHolding = false ∧
          ∃ pt, encode t = some pt ∧ s'.writes = s.writes ++ [[pt]])) := by
  obtain ⟨quit, coll, pers, done, running, writes⟩ := s
  simp only at hc hp
  subst hc hp
  unfold step at h
  split at h
  · cases h
  · cases e with
    | signal =>
      simp only [Option.some.injEq] at h
      subst h
      exact ⟨rfl, Or.inl ⟨rfl, rfl⟩⟩
    | fetch r => cases h
    | collectorQuit => cases h
    | handoff =>
      simp only at h
      cases h
    | batchFailed =>
      simp only [Option.some.injEq] at h
      subst h
      exact ⟨rfl, Or.inr (Or.inl ⟨rfl, rfl⟩)⟩
    | write r =>
      simp only at h
      cases henc : encode t with
      | none =>
        rw [henc] at h
        simp only [Option.some.injEq] at h
        subst h
        exact ⟨rfl, Or.inr (Or.inl ⟨rfl, rfl⟩)⟩
      | some pt =>
        rw [henc] at h
        cases r with
        | some err =>
          simp only [Option.some.injEq] at h
          subst h
          exact ⟨rfl, Or.inr (Or.inr ⟨rfl, pt, rfl, rfl⟩)⟩
        | none =>
          simp only [Option.some.injEq] at h
          subst h
          exact ⟨rfl, Or.inr (Or.inr ⟨rfl, pt, rfl, rfl⟩)⟩
    | logDelivered => cases h
    | persisterQuit => cases h
    | doneSent => cases h
    | exit =>
      simp only at h
      split at h
      · simp only [Option.some.injEq] at h
        subst h
        exact ⟨rfl, Or.inr (Or.inl ⟨rfl, rfl⟩)⟩
      · cases h

theorem run_ended {Tk P E : Type} (encode : Tk → Option P) (evs : List (Event Tk E))
    (s s' : Sys Tk P) (hr : s.running = false) (h : run encode s evs = some s') : s' = s := by
  cases evs with
  | nil =>
    simp only [run, Option.some.injEq] at h
    exact h.symm
  | cons e rest =>
    simp only [run, step, hr, if_true] at h
    cases h

theorem run_in_flight {Tk P E : Type} (encode : Tk → Option P) (evs : List (Event Tk E)) :
    ∀ (s s' : Sys Tk P) (t : Tk), s.collector = Collector.stopped →
      s.persister = Persister.holding t → run encode s evs = some s' →
      (s'.writes = s.writes ∨ ∃ pt, encode t = some pt ∧ s'.writes = s.writes ++ [[pt]]) := by
  induction evs with
  | nil =>
    intro s s' t _ _ h
    simp only [run, Option.some.injEq] at h
    rw [h]
    exact Or.inl rfl
  | cons e rest ih =>
    intro s s' t hc hp h
    simp only [run] at h
    cases hs : step encode s e with
    | none => rw [hs] at h; cases h
    | some mid =>
      rw [hs] at h
      obtain ⟨hc', hcase⟩ := step_in_flight encode s mid e t hc hp hs
      rcases hcase with ⟨hp', hw⟩ | ⟨hr, hw⟩ | ⟨hp', pt, henc, hw⟩
      · rw [← hw]
        exact ih mid s' t hc' hp' h
      · rw [run_ended encode rest mid s' hr h, hw]
        exact Or.inl rfl
      · rw [run_quiet encode rest mid s' hc' hp' h, hw]
        exact Or.inr ⟨pt, henc, rfl⟩

/-- Taking the quit case: `quit` is closed, nothing is written, and the persister goes on to
its send on `done`. -/
theorem step_persisterQuit {Tk P E : Type} (encode : Tk → Option P) (a b : Sys Tk P)
    (h : step encode a (Event.persisterQuit : Event Tk E) = some b) :
    a.quit = true ∧ b.persister = Persister.signalling ∧ b.writes = a.writes := by
  obtain ⟨quit, coll, pers, done, running, writes⟩ := a
  unfold step at h
  split at h
  · cases h
  · cases pers with
    | select =>
      simp only at h
      split at h
      · rename_i hq
        simp only [Option.some.injEq] at h
        subst h
        exact ⟨hq, rfl, rfl⟩
      · cases h
    | logging => cases h
    | holding t => cases h
    | signalling => cases h

/-- While the persister is at its send on `done`, nothing is written, and the persister
leaves that place only by completing the send, which adds one value to `done`. -/
theorem step_signalling {Tk P E : Type} (encode : Tk → Option P) (a b : Sys Tk P)
    (e : Event Tk E) (hp : a.persister = Persister.signalling)
    (h : step encode a e = some b) :
    b.writes = a.writes ∧
      (b.persister = Persister.signalling ∨ (e = Event.doneSent ∧ b.done = a.done + 1)) := by
  obtain ⟨quit, coll, pers, done, running, writes⟩ := a
  simp only at hp
  subst hp
  unfold step at h
  split at h
  · cases h
  · cases e with
    | signal =>
      simp only [Option.some.injEq] at h
      subst h
      exact ⟨rfl, Or.inl rfl⟩
    | fetch r =>
      cases coll with
      | idle =>
        cases r with
        | error err =>
          simp only [Option.some.injEq] at h
          subst h
          exact ⟨rfl, Or.inl rfl⟩
        | ok ts =>
          simp only [Option.some.injEq] at h
          subst h
          exact ⟨rfl, Or.inl rfl⟩
      | sending l => cases h
      | stopped => cases h
    | collectorQuit =>
      cases coll with
      | idle =>
        simp only at h
        split at h
        · simp only [Option.some.injEq] at h
          subst h
          exact ⟨rfl, Or.inl rfl⟩
        · cases h
      | sending l => cases h
      | stopped => cases h
    | handoff =>
      simp only at h
      cases h
    | batchFailed => cases h
    | write r => cases h
    | logDelivered => cases h
    | persisterQuit => cases h
    | doneSent =>
      simp only at h
      split at h
      · simp only [Option.some.injEq] at h
        subst h
        exact ⟨rfl, Or.inr ⟨rfl, rfl⟩⟩
      · cases h
    | exit =>
      simp only at h
      split at h
      · simp only [Option.some.injEq] at h
        subst h
        exact ⟨rfl, Or.inl rfl⟩
      · cases h

theorem Collector.emit_ne_stopped {Tk : Type} (ts : List Tk) :
    Collector.emit ts ≠ Collector.stopped := by
  cases ts <;> intro h <;> cases h

theorem step_stopped_after_quit {Tk P E : Type} (encode : Tk → Option P) (s s' : Sys Tk P)
    (e : Event Tk E) (hq : s.collector = Collector.stopped → s.quit = true)
    (h : step encode s e = some s') : s'.collector = Collector.stopped → s'.quit = true := by
  obtain ⟨quit, coll, pers, done, running, writes⟩ := s
  simp only at hq
  unfold step at h
  split at h
  · cases h
  · cases e with
    | signal =>
      simp only [Option.some.injEq] at h
      subst h
      exact fun _ => rfl
    | fetch r =>
      cases coll with
      | idle =>
        cases r with
        | error err =>
          simp only [Option.some.injEq] at h
          subst h
          exact hq
        | ok ts =>
          simp only [Option.some.injEq] at h
          subst h
          intro hst
          exact absurd hst (Collector.emit_ne_stopped _)
      | sending l => cases h
      | stopped => cases h
    | collectorQuit =>
      cases coll with
      | idle =>
        simp only at h
        split at h
        · rename_i hquit
          simp only [Option.some.injEq] at h
          subst h
          exact fun _ => hquit
        · cases h
      | sending l => cases h
      | stopped => cases h
    | handoff =>
      simp only at h
      split at h
      · simp only [Option.some.injEq] at h
        subst h
        intro hst
        exact absurd hst (Collector.emit_ne_stopped _)
      · cases h
    | batchFailed =>
      cases pers with
      | holding t =>
        simp only [Option.some.injEq] at h
        subst h
        exact hq
      | select => cases h
      | logging => cases h
      | signalling => cases h
    | write r =>
      cases pers with
      | holding t =>
        simp only at h
        cases henc : encode t with
        | none =>
          rw [henc] at h
          simp only [Option.some.injEq] at h
          subst h
          exact hq
        | some pt =>
          rw [henc] at h
          cases r with
          | some err =>
            simp only [Option.some.injEq] at h
            subst h
            exact hq
          | none =>
            simp only [Option.some.injEq] at h
            subst h
            exact hq
      | select => cases h
      | logging => cases h
      | signalling => cases h
    | logDelivered =>
      cases pers with
      | logging =>
        simp only [Option.some.injEq] at h
        subst h
        exact hq
      | select => cases h
      | holding t => cases h
      | signalling => cases h
    | persisterQuit =>
      cases pers with
      | select =>
        simp only at h
        split at h
        · simp only [Option.some.injEq] at h
          subst h
          exact hq
        · cases h
      | logging => cases h
      | holding t => cases h
      | signalling => cases h
    | doneSent =>
      cases pers with
      | signalling =>
        simp only at h
        split at h
        · simp only [Option.some.injEq] at h
          subst h
          exact hq
        · cases h
      | logging => cases h
      | holding t => cases h
      | select => cases h
    | exit =>
      simp only at h
      split at h
      · simp only [Option.some.injEq] at h
        subst h
        exact hq
      · cases h

theorem run_stopped_after_quit {Tk P E : Type} (encode : Tk → Option P)
    (evs : List (Event Tk E)) :
    ∀ (s s' : Sys Tk P), (s.collector = Collector.stopped → s.quit = true) →
      run encode s evs = some s' → s'.collector = Collector.stopped → s'.quit = true := by
  induction evs with
  | nil =>
    intro s s' hq h
    simp only [run, Option.some.injEq] at h
    subst h
    exact hq
  | cons e rest ih =>
    intro s s' hq h
    simp only [run] at h
    cases hs : step encode s e with
    | none => rw [hs] at h; cases h
    | some mid =>
      rw [hs] at h
      exact ih mid s' (step_stopped_after_quit encode s mid e hq hs) h

/-! ## The collection loop: claims -/

/-- C7, as stated, fails. In this run the Collector has fetched the ticks t1 and t2 and the
Persister has written t1 when the signal closes `quit`; the Persister takes the quit case
and signals done; then, the Supervisor not having taken the notification yet, it takes t2,
which the Collector is still sending, and calls the Sink Writer with it. -/
theorem persister_writes_after_quit :
    run (fun t : String => some t) (Sys.init String String)
        ([Event.fetch (Except.ok ["t1", "t2"]), Event.handoff, Event.write none,
          Event.logDelivered, Event.signal, Event.persisterQuit, Event.doneSent] :
          List (Event String Unit)) =
      some ⟨true, Collector.sending ["t2"], Persister.select, 1, true, [["t1"]]⟩ ∧
    run (fun t : String => some t)
        ⟨true, Collector.sending ["t2"], Persister.select, 1, true, [["t1"]]⟩
        ([Event.handoff, Event.write none] : List (Event String Unit)) =
      some ⟨true, Collector.idle, Persister.logging, 1, true, [["t1"], ["t2"]]⟩ :=
  ⟨rfl, rfl⟩

/-- C7 (amended): in every run, once the Collector has observed the closed quit signal and
returned, no new write attempt is issued after the Persister's current in-flight operation
(the write of the Tick it holds, if any) completes. On observing quit (which it does only
when quit is closed) the Persister issues no write attempt before it has signalled done to
the Supervisor, and the signal puts one notification into `done`. The Collector is in its
returned state only after quit has been closed. -/
theorem no_write_once_collector_stopped {Tk P E : Type} (encode : Tk → Option P)
    (s s' : Sys Tk P) (evs : List (Event Tk E)) (hc : s.collector = Collector.stopped)
    (h : run encode s evs = some s') :
    (s'.writes = s.writes ∨
      ∃ t pt, s.persister = Persister.holding t ∧ encode t = some pt ∧
        s'.writes = s.writes ++ [[pt]]) ∧
    (∀ a b : Sys Tk P, step encode a (Event.persisterQuit : Event Tk E) = some b →
      a.quit = true ∧ b.persister = Persister.signalling ∧ b.writes = a.writes) ∧
    (∀ (a b : Sys Tk P) (e : Event Tk E), a.persister = Persister.signalling →
      step encode a e = some b →
      b.writes = a.writes ∧
        (b.persister = Persister.signalling ∨ (e = Event.doneSent ∧ b.done = a.done + 1))) ∧
    (∀ (evs0 : List (Event Tk E)) (s0 : Sys Tk P),
      run encode (Sys.init Tk P) evs0 = some s0 → s0.collector = Collector.stopped →
      s0.quit = true) := by
  refine ⟨?_, fun a b => step_persisterQuit encode a b,
    fun a b e => step_signalling encode a b e, ?_⟩
  · cases hp : s.persister with
    | holding t =>
      rcases run_in_flight encode evs s s' t hc hp h with hw | ⟨pt, henc, hw⟩
      · exact Or.inl hw
      · exact Or.inr ⟨t, pt, rfl, henc, hw⟩
    | select => exact Or.inl (run_quiet encode evs s s' hc (by rw [hp]; rfl) h)
    | logging => exact Or.inl (run_quiet encode evs s s' hc (by rw [hp]; rfl) h)
    | signalling => exact Or.inl (run_quiet encode evs s s' hc (by rw [hp]; rfl) h)
  · intro evs0 s0 h0
    exact run_stopped_after_quit encode evs0 (Sys.init Tk P) s0 (fun hst => by cases hst) h0

/-- A witness of C7 (amended): the Collector has returned while the Persister holds the tick
t3; t3 is written, the Persister observes quit and signals done, the Supervisor exits. -/
theorem no_write_once_collector_stopped_witness :
    run (fun t : String => some t)
        ⟨true, Collector.stopped, Persister.holding "t3", 0, true, [["t1"]]⟩
        ([Event.write none, Event.logDelivered, Event.persisterQuit, Event.doneSent,
          Event.exit] : List (Event String Unit)) =
      some ⟨true, Collector.stopped, Persister.select, 0, false, [["t1"], ["t3"]]⟩ ∧
    (([["t1"], ["t3"]] : List (List String)) = [["t1"]] ∨
      ∃ t pt, (Persister.holding "t3" : Persister String) = Persister.holding t ∧
        (fun t : String => some t) t = some pt ∧
        ([["t1"], ["t3"]] : List (List String)) = [["t1"]] ++ [[pt]]) :=
  ⟨rfl, (no_write_once_collector_stopped (fun t : String => some t)
    ⟨true, Collector.stopped, Persister.holding "t3", 0, true, [["t1"]]⟩
    ⟨true, Collector.stopped, Persister.select, 0, false, [["t1"], ["t3"]]⟩
    ([Event.write none, Event.logDelivered, Event.persisterQuit, Event.doneSent,
      Event.exit] : List (Event String Unit)) rfl rfl).1⟩

/-- C8: in every run of the process from its start, whatever the timer firings, fetch
results and scheduling, the ticks fetched so far (the concatenation of the fetched lists) are
the ticks `ws` written so far, then the tick the Persister holds, then the ticks the Collector
still has to send: each tick is emitted once, in the order returned. The ticks written are a
prefix of the ticks fetched, and the batches handed to the Sink Writer are, in that order, one
batch per written tick holding the single Point it encodes to. -/
theorem writes_follow_fetch_order {Tk P E : Type} (encode : Tk → Option P)
    (evs : List (Event Tk E)) (s : Sys Tk P)
    (h : run encode (Sys.init Tk P) evs = some s) :
    ∃ ws : List Tk,
      fetchedBy evs = ws ++ s.persister.inHand ++ s.collector.pending ∧
      ws <+: fetchedBy evs ∧
      s.writes.map (List.map some) = ws.map (fun t => [encode t]) ∧
      s.writes.length = ws.length := by
  have hinit : (Sys.init Tk P).Conserves encode [] := ⟨[], rfl, rfl⟩
  obtain ⟨ws, hw, hF⟩ := run_conserves encode evs [] (Sys.init Tk P) s hinit h
  simp only [List.nil_append] at hF
  refine ⟨ws, hF, ?_, hw, ?_⟩
  · rw [hF, List.append_assoc]
    exact List.prefix_append _ _
  · have hl := congrArg List.length hw
    simpa using hl

/-- A witness of C8: two fetches, of t1, t2 and of t3; t1 is written, t2 is written (the
Sink Writer returning an error), t3 is being sent. -/
theorem writes_follow_fetch_order_witness :
    run (fun t : String => some t) (Sys.init String String)
        ([Event.fetch (Except.ok ["t1", "t2"]), Event.handoff, Event.write none,
          Event.logDelivered, Event.handoff, Event.write (some ()),
          Event.fetch (Except.ok ["t3"])] : List (Event String Unit)) =
      some ⟨false, Collector.sending ["t3"], Persister.select, 0, true, [["t1"], ["t2"]]⟩ ∧
    ∃ ws : List String,
      ["t1", "t2", "t3"] = ws ++ [] ++ ["t3"] ∧
      ws <+: ["t1", "t2", "t3"] ∧
      [[some "t1"], [some "t2"]] = ws.map (fun t => [some t]) ∧
      2 = ws.length :=
  ⟨rfl, writes_follow_fetch_order (fun t : String => some t)
    ([Event.fetch (Except.ok ["t1", "t2"]), Event.handoff, Event.write none,
      Event.logDelivered, Event.handoff, Event.write (some ()),
      Event.fetch (Except.ok ["t3"])] : List (Event String Unit))
    ⟨false, Collector.sending ["t3"], Persister.select, 0, true, [["t1"], ["t2"]]⟩ rfl⟩

end Trend
